import Mathlib

/-!
Shallow embedding of the VelocyPack `Builder` core
(`src/include/velocypack/Builder.h`, `src/src/Collection.cpp`) and proofs
about it.

Bytes are modelled as `Nat` values below 256, buffers as `List Nat`
(least-significant / first-written byte at the head of each emitted group,
appended at the list tail), machine integers as `Nat` / `Int` with explicit
`% 2 ^ w` where the C++ truncates.  Each C++ member function that only
appends bytes is split into a pure byte-producing function (the net
sequence of bytes the function appends) plus, where needed, a state-passing
wrapper; fallible operations return their final state together with an
`Option Err`, mirroring the fact that a throwing Builder survives and keeps
its (possibly compensated) state.

`Builder.cpp`, `Slice.h`, `Value.h`, `Options.h` and `Buffer.h` are not
part of the given sources.  Definitions that stand in for code from those
files are marked `Modelled from the spec:` in their doc comments and follow
the specification text; everything else is translated directly from
`Builder.h` / `Collection.cpp`.
-/

namespace VPack

/-- Error kinds of the builder, from spec section 7 (`Exception.h` is not in
the sources). -/
inductive Err where
  | builderNotSealed
  | builderNeedOpenObject
  | builderNeedOpenArray
  | builderNeedOpenCompound
  | builderKeyAlreadyWritten
  | builderKeyMustBeString
  | builderExternalsDisallowed
  | builderBCDDisallowed
  | duplicateAttributeName
  | builderUnexpectedType
  | numberOutOfRange
  | internalError
deriving Repr, DecidableEq

/-- Little-endian byte encoding: `n` bytes of `x`, least significant first.
This is the net effect of the C++ pattern
`for (...) { appendByteUnchecked(x & 0xff); x >>= 8; }`
(`Builder.h`, e.g. `appendLengthUnchecked`). -/
def leBytes : Nat → Nat → List Nat
  | 0, _ => []
  | n + 1, x => x % 256 :: leBytes n (x / 256)

/-- The loop of `Builder::intLength` (`Builder.h` lines 1006-1019):
`do { xSize++; x >>= 8; } while (x >= 0x80);` — the returned value is the
number of iterations performed on `x`. -/
def intLengthLoop (x : Nat) : Nat :=
  if h : 0x80 ≤ x / 256 then intLengthLoop (x / 256) + 1 else 1
termination_by x
decreasing_by
  exact Nat.div_lt_self (by omega) (by omega)

/-- `Builder::intLength` (`Builder.h` lines 1006-1019): number of bytes
required to store `value` in two's complement. -/
def intLength (v : Int) : Nat :=
  if -0x80 ≤ v ∧ v ≤ 0x7f then 1
  else
    let x : Nat := if 0 ≤ v then v.toNat else (-(v + 1)).toNat
    intLengthLoop x + 1

/-- Net bytes appended by `Builder::appendInt` (`Builder.h` lines
1021-1037): head `base + vSize` then `vSize` little-endian bytes of the
two's-complement image of `v`; `(v + shift) + shift` with
`shift = 1 << (vSize*8 - 1)` equals `v + 2 ^ (vSize * 8)`. -/
def appendInt (v : Int) (base : Nat) : List Nat :=
  let vSize := intLength v
  let x : Nat :=
    if vSize = 8 then (v.emod (2 ^ 64)).toNat
    else if 0 ≤ v then v.toNat
    else (v + 2 ^ (vSize * 8)).toNat
  (base + vSize) % 256 :: leBytes vSize x

/-- The do-while loop of `Builder::appendUInt` (`Builder.h` lines
992-1003): emits at least one byte, then continues while `v != 0`. -/
def uintLoopBytes (v : Nat) : List Nat :=
  if h : v / 256 = 0 then [v % 256]
  else v % 256 :: uintLoopBytes (v / 256)
termination_by v
decreasing_by
  exact Nat.div_lt_self (by omega) (by omega)

/-- Net bytes appended by `Builder::appendUInt` (`Builder.h` lines
992-1003).  The C++ writes the payload first and patches the head byte at
the saved position afterwards; the net byte sequence is head then
payload. -/
def appendUInt (v : Nat) (base : Nat) : List Nat :=
  (base + (uintLoopBytes v).length) % 256 :: uintLoopBytes v

/-- Net bytes appended by `Builder::addInt` (`Builder.h` lines 684-695). -/
def addInt (v : Int) : List Nat :=
  if 0 ≤ v ∧ v ≤ 9 then [0x30 + v.toNat]
  else if v < 0 ∧ -6 ≤ v then [(0x40 + v).toNat]
  else appendInt v 0x1f

/-- Net bytes appended by `Builder::addUInt` (`Builder.h` lines
697-705). -/
def addUInt (v : Nat) : List Nat :=
  if v ≤ 9 then [0x30 + v]
  else appendUInt v 0x27

/-- Builder options (`Options.h` is not in the sources).  Modelled from the
spec: section 6 lists the recognized keys and their effects; the attribute
translator (spec section 4.5) is a read-only name-to-bytes table, modelled
as an optional function from key bytes to translated slice bytes. -/
structure Options where
  buildUnindexedArrays : Bool := false
  buildUnindexedObjects : Bool := false
  buildUnsortedObjects : Bool := false
  checkAttributeUniqueness : Bool := false
  disallowExternals : Bool := false
  disallowBCD : Bool := false
  attributeTranslator : Option (List Nat → Option (List Nat)) := none

/-- Scalar input token (`Value.h` is not in the sources).  Modelled from
the spec: section 9 describes the input `Value` as a tagged variant; the
double carries its raw IEEE-754 bit pattern (the C++ `memcpy`s the bits),
strings carry their UTF-8 bytes, externals carry the machine address, and
`vNone` stands for a `ValueType` the builder cannot encode
(`BuilderUnexpectedType`, spec section 7). -/
inductive Value where
  | vNull
  | vBool (b : Bool)
  | vDouble (bits : Nat)
  | vInt (i : Int)
  | vUInt (u : Nat)
  | vSmallInt (i : Int)
  | vString (s : List Nat)
  | vUTCDate (ms : Int)
  | vExternal (addr : Nat)
  | vNone
deriving Repr, DecidableEq

/-- `Builder::CompoundInfo` (`Builder.h` lines 88-91): start position of an
open container and the index into `_indexes` where its child offsets
begin. -/
structure CompoundInfo where
  startPos : Nat
  indexStartPos : Nat
deriving Repr, DecidableEq

/-- The builder state (`Builder.h` lines 78-105): output buffer (`_pos`
always equals `buffer.length`, matching the invariant `_pos ==
_buffer->size()`), stack of open frames (head of the list = innermost
frame), flat child-offset vector `_indexes`, and the `_keyWritten` flag.
`children` is a ghost history variable, one counter per open frame (head =
innermost), counting how many child values have been emitted into that
frame; it does not exist in the C++ state and is used only to state
invariants. -/
structure BuilderState where
  buffer : List Nat
  stack : List CompoundInfo
  indexes : List Nat
  keyWritten : Bool
  children : List Nat
deriving Repr, DecidableEq

/-- A fresh builder: empty buffer, no open frames (`Builder.h` `clear`,
lines 206-215). -/
def newBuilder : BuilderState := ⟨[], [], [], false, []⟩

/-- Result of a fallible builder operation: the state after the operation
(after any compensation on the failure path) and the error, if one was
thrown. -/
abbrev BRes := BuilderState × Option Err

/-- Increment the ghost child counter of the innermost open frame. -/
def bumpChild : List Nat → List Nat
  | [] => []
  | c :: r => (c + 1) :: r

/-- Append the bytes of one completed child value and count it in the ghost
counter of the innermost frame. -/
def appendChild (st : BuilderState) (bs : List Nat) : BuilderState :=
  { st with buffer := st.buffer ++ bs, children := bumpChild st.children }

/-- `Builder::reportAdd` (declared `Builder.h` line 982, body in the
missing `Builder.cpp`).  Modelled from the spec: before writing a child
into an open frame, push its intended offset onto `indexes` (spec section
4.3); per section 3 the entries are absolute buffer offsets, i.e. the
current append position. -/
def reportAdd (st : BuilderState) : BuilderState :=
  { st with indexes := st.indexes ++ [st.buffer.length] }

/-- `Builder::cleanupAdd` (declared `Builder.h` line 980, body in the
missing `Builder.cpp`).  Modelled from the spec: on the failure path, pop
the offset pushed by `reportAdd` (spec section 4.3).  It is declared
`noexcept` and takes no arguments, and five sibling call sites in
`Builder.h` guard it with a `haveReported` flag, so it unconditionally pops
one entry; the buffer cursor needs no rollback here because every failing
write in this model fails before appending any byte. -/
def cleanupAdd (st : BuilderState) : BuilderState :=
  { st with indexes := st.indexes.dropLast }

/-- The shared body of both `Builder::checkKeyHasValidType` overloads
(`Builder.h` lines 756-779): if the innermost open frame is an Object
(head `0x0b` or `0x14`), a key position (`!_keyWritten`) with an invalid
item throws `BuilderKeyMustBeString`, otherwise `_keyWritten` is
toggled. -/
def checkKeyValid (st : BuilderState) (isValid : Bool) : BRes :=
  match st.stack with
  | [] => (st, none)
  | f :: _ =>
    let h := st.buffer.getD f.startPos 0
    if h = 0x0b ∨ h = 0x14 then
      if !st.keyWritten && !isValid then (st, some .builderKeyMustBeString)
      else ({ st with keyWritten := !st.keyWritten }, none)
    else (st, none)

/-- Head-byte classifier for strings, from the head table of spec section 6
(`Slice.h` is not in the sources): `0x40..0xbe` short string, `0xbf` long
string. -/
def isStringHead (h : Nat) : Bool := 0x40 ≤ h && h ≤ 0xbf

/-- Head-byte classifier for SmallInt (`0x30..0x3f`), spec section 6. -/
def isSmallIntHead (h : Nat) : Bool := 0x30 ≤ h && h ≤ 0x3f

/-- Head-byte classifier for UInt (`0x28..0x2f`), spec section 6. -/
def isUIntHead (h : Nat) : Bool := 0x28 ≤ h && h ≤ 0x2f

/-- `Builder::checkKeyHasValidType(Slice)` (`Builder.h` lines 768-779): a
slice is a valid key iff it is a String, SmallInt or UInt — with no
reference to the attribute translator. -/
def checkKeyValidSlice (st : BuilderState) (sliceHead : Nat) : BRes :=
  checkKeyValid st (isStringHead sliceHead || isSmallIntHead sliceHead ||
    isUIntHead sliceHead)

/-- String encoding, used by `set(ValuePair)` / `set(Value)` for strings
(bodies in the missing `Builder.cpp`).  Modelled from the spec: section 3,
short string `0x40 + len` for at most 126 bytes, else `0xbf` plus 8-byte
little-endian length (spec section 6). -/
def stringBytes (s : List Nat) : List Nat :=
  if s.length ≤ 126 then (0x40 + s.length) :: s
  else 0xbf :: (leBytes 8 s.length ++ s)

/-- Net bytes appended by `Builder::addDouble` (`Builder.h` lines
672-682): head `0x1b` then the 8 bytes of the IEEE-754 bit pattern,
little-endian. -/
def addDouble (bits : Nat) : List Nat := 0x1b :: leBytes 8 bits

/-- Net bytes appended by `Builder::addUTCDate` (`Builder.h` lines
747-752): head `0x1c` then `toUInt64(v)` as 8 little-endian bytes. -/
def addUTCDate (ms : Int) : List Nat :=
  0x1c :: leBytes 8 ((ms.emod (2 ^ 64)).toNat)

/-- Bytes of a `SmallInt` typed `Value`, per the `set(Value)` dispatch
(missing `Builder.cpp`).  Modelled from the spec: section 3 SmallInt row,
`0x30 + n` for 0..9 and `0x3a..0x3f` for -6..-1, `NumberOutOfRange`
otherwise (spec section 7). -/
def smallIntBytes (i : Int) : Except Err (List Nat) :=
  if 0 ≤ i ∧ i ≤ 9 then .ok [0x30 + i.toNat]
  else if -6 ≤ i ∧ i < 0 then .ok [(0x40 + i).toNat]
  else .error .numberOutOfRange

/-- Scalar dispatch of `Builder::set(Value)` (missing `Builder.cpp`).
Modelled from the spec: section 9, dispatch over the tagged variant; each
arm delegates to the corresponding in-source emitter from `Builder.h`;
`External` is gated by `options.disallowExternals` (spec sections 4.1 and
6) and writes head `0x1d` plus the pointer-sized (8-byte) address; an
unencodable variant yields `BuilderUnexpectedType` (spec section 7). -/
def scalarBytes (opts : Options) : Value → Except Err (List Nat)
  | .vNull => .ok [0x18]
  | .vBool b => .ok [if b then 0x1a else 0x19]
  | .vDouble bits => .ok (addDouble bits)
  | .vInt i => .ok (addInt i)
  | .vUInt u => .ok (addUInt u)
  | .vSmallInt i => smallIntBytes i
  | .vString s => .ok (stringBytes s)
  | .vUTCDate ms => .ok (addUTCDate ms)
  | .vExternal addr =>
    if opts.disallowExternals then .error .builderExternalsDisallowed
    else .ok (0x1d :: leBytes 8 addr)
  | .vNone => .error .builderUnexpectedType

/-- Whether a `Value` is the String variant (`item.valueType() ==
ValueType::String`), the key-validity condition `set(Value)` passes to
`checkKeyHasValidType(bool)`. -/
def Value.isStr : Value → Bool
  | .vString _ => true
  | _ => false

/-- `Builder::set(Value)` (missing `Builder.cpp`).  Modelled from the spec:
first the key check (sections 4.1 and 7 — for a plain `Value`, only the
String variant is a valid key), then the scalar bytes are appended; on a
failure after the key check the buffer is untouched, so only the
`keyWritten` toggle performed by the check survives. -/
def set (opts : Options) (st : BuilderState) (v : Value) : BRes :=
  match checkKeyValid st v.isStr with
  | (st1, some e) => (st1, some e)
  | (st1, none) =>
    match scalarBytes opts v with
    | .error e => (st1, some e)
    | .ok bs => (appendChild st1 bs, none)

/-- `Builder::set(Slice)` (missing `Builder.cpp`).  Modelled from the spec:
a pre-encoded slice is checked as a key via the in-source
`checkKeyHasValidType(Slice)` and then copied verbatim (spec section
4.1). -/
def setSlice (st : BuilderState) (s : List Nat) : BRes :=
  match checkKeyValidSlice st (s.getD 0 0) with
  | (st1, some e) => (st1, some e)
  | (st1, none) => (appendChild st1 s, none)

/-- `Builder::set(ValuePair)` for a String pair (missing `Builder.cpp`).
Modelled from the spec: a string-pair carries pointer plus length and is
encoded like a string (spec section 2); key-wise a String pair is always a
valid key. -/
def setStringPair (st : BuilderState) (s : List Nat) : BRes :=
  match checkKeyValid st true with
  | (st1, some e) => (st1, some e)
  | (st1, none) => (appendChild st1 (stringBytes s), none)

/-- Tag prefix bytes of `Builder::appendTag` (missing `Builder.cpp`).
Modelled from the spec: section 6, `0xee..0xef` — tagged-value prefix
carrying a 1- or 8-byte tag. -/
def tagBytes (tag : Nat) : List Nat :=
  if tag < 256 then [0xee, tag] else 0xef :: leBytes 8 tag

/-- Append a tag prefix (no ghost child count: the tag head and the value
it wraps form a single child). -/
def appendTagBytes (st : BuilderState) (tag : Nat) : BuilderState :=
  { st with buffer := st.buffer ++ tagBytes tag }

/-- `Builder::addInternal<T>(T const&)` (`Builder.h` lines 790-806): with
an empty stack, plain `set`; otherwise `reportAdd` when no key is pending,
then `set` inside a try block whose catch calls `cleanupAdd`
unconditionally — there is no `haveReported` guard in this overload. -/
def addInternal (opts : Options) (st : BuilderState) (v : Value) : BRes :=
  match st.stack with
  | [] => set opts st v
  | _ :: _ =>
    let st1 := if !st.keyWritten then reportAdd st else st
    match set opts st1 v with
    | (st2, none) => (st2, none)
    | (st2, some e) => (cleanupAdd st2, some e)

/-- `Builder::addInternal<Slice>` (`Builder.h` lines 790-806 instantiated
at `Slice`, delegating to `set(Slice)`). -/
def addSlice (st : BuilderState) (s : List Nat) : BRes :=
  match st.stack with
  | [] => setSlice st s
  | _ :: _ =>
    let st1 := if !st.keyWritten then reportAdd st else st
    match setSlice st1 s with
    | (st2, none) => (st2, none)
    | (st2, some e) => (cleanupAdd st2, some e)

/-- `Builder::addInternalTagged<T>(uint64_t, T const&)` (`Builder.h` lines
809-831): like `addInternal` but prepending the tag head when `tag != 0`;
the catch again calls `cleanupAdd` unconditionally. -/
def addInternalTagged (opts : Options) (st : BuilderState) (tag : Nat)
    (v : Value) : BRes :=
  match st.stack with
  | [] =>
    let st0 := if tag != 0 then appendTagBytes st tag else st
    set opts st0 v
  | _ :: _ =>
    let st1 := if !st.keyWritten then reportAdd st else st
    let st2 := if tag != 0 then appendTagBytes st1 tag else st1
    match set opts st2 v with
    | (st3, none) => (st3, none)
    | (st3, some e) => (cleanupAdd st3, some e)

/-- `Builder::writeValue` (`Builder.h` lines 920-924): set `_keyWritten`
and emit the value. -/
def writeValue (opts : Options) (st : BuilderState) (v : Value) : BRes :=
  set opts { st with keyWritten := true } v

/-- `Builder::writeValueTagged` (`Builder.h` lines 926-933): set
`_keyWritten`, prepend the tag head when `tag != 0`, emit the value. -/
def writeValueTagged (opts : Options) (st : BuilderState) (tag : Nat)
    (v : Value) : BRes :=
  let st1 := { st with keyWritten := true }
  let st2 := if tag != 0 then appendTagBytes st1 tag else st1
  set opts st2 v

/-- The key-emission step of `Builder::addInternal(std::string_view, T)`
(`Builder.h` lines 848-866): if the attribute translator knows the name,
its translated bytes are copied verbatim (one child), else the name is
encoded as a String pair. -/
def emitKey (opts : Options) (st : BuilderState) (attrName : List Nat) :
    BRes :=
  match opts.attributeTranslator with
  | some tr =>
    match tr attrName with
    | some translated => (appendChild st translated, none)
    | none => setStringPair st attrName
  | none => setStringPair st attrName

/-- `Builder::addInternal<T>(std::string_view, T const&)` (`Builder.h`
lines 833-874): with a nonempty stack the innermost frame must be an
Object (`0x0b` / `0x14`, else `BuilderNeedOpenObject`) with no pending key
(else `BuilderKeyAlreadyWritten`), and the add is reported; with an empty
stack no check is made.  Then key and value are emitted inside a try block
whose catch calls `cleanupAdd` only when the add was reported. -/
def addInternalKV (opts : Options) (st : BuilderState) (attrName : List Nat)
    (v : Value) : BRes :=
  match st.stack with
  | f :: _ =>
    let h := st.buffer.getD f.startPos 0
    if h ≠ 0x0b ∧ h ≠ 0x14 then (st, some .builderNeedOpenObject)
    else if st.keyWritten then (st, some .builderKeyAlreadyWritten)
    else
      let st1 := reportAdd st
      match emitKey opts st1 attrName with
      | (st2, some e) => (cleanupAdd st2, some e)
      | (st2, none) =>
        match writeValue opts st2 v with
        | (st3, none) => (st3, none)
        | (st3, some e) => (cleanupAdd st3, some e)
  | [] =>
    match emitKey opts st attrName with
    | (st2, some e) => (st2, some e)
    | (st2, none) => writeValue opts st2 v

/-- `Builder::addInternalTagged<T>(std::string_view, uint64_t, T const&)`
(`Builder.h` lines 876-918): like `addInternalKV` with `writeValueTagged`
in place of `writeValue`. -/
def addInternalTaggedKV (opts : Options) (st : BuilderState)
    (attrName : List Nat) (tag : Nat) (v : Value) : BRes :=
  match st.stack with
  | f :: _ =>
    let h := st.buffer.getD f.startPos 0
    if h ≠ 0x0b ∧ h ≠ 0x14 then (st, some .builderNeedOpenObject)
    else if st.keyWritten then (st, some .builderKeyAlreadyWritten)
    else
      let st1 := reportAdd st
      match emitKey opts st1 attrName with
      | (st2, some e) => (cleanupAdd st2, some e)
      | (st2, none) =>
        match writeValueTagged opts st2 tag v with
        | (st3, none) => (st3, none)
        | (st3, some e) => (cleanupAdd st3, some e)
  | [] =>
    match emitKey opts st attrName with
    | (st2, some e) => (st2, some e)
    | (st2, none) => writeValueTagged opts st2 tag v

/-- `Builder::addCompoundValue` (`Builder.h` lines 935-942): push a frame
recording the current position and the current `indexes` size, then append
the type byte and 8 zero bytes.  Ghost bookkeeping: the new container is
one child of its parent, and starts with zero children of its own. -/
def addCompoundValue (st : BuilderState) (t : Nat) : BuilderState :=
  { buffer := st.buffer ++ t :: List.replicate 8 0
    stack := ⟨st.buffer.length, st.indexes.length⟩ :: st.stack
    indexes := st.indexes
    keyWritten := st.keyWritten
    children := 0 :: bumpChild st.children }

/-- `Builder::openCompoundValue` (`Builder.h` lines 944-963): with an
empty stack open directly; with a pending key, clear `_keyWritten` and
open; otherwise the innermost frame must be an Array (`0x06` / `0x13`,
else `BuilderNeedOpenArray`), and the new container is reported as a
child. -/
def openCompoundValue (st : BuilderState) (t : Nat) : BRes :=
  match st.stack with
  | [] => (addCompoundValue st t, none)
  | f :: _ =>
    if st.keyWritten then
      (addCompoundValue { st with keyWritten := false } t, none)
    else
      let h := st.buffer.getD f.startPos 0
      if h ≠ 0x06 ∧ h ≠ 0x13 then (st, some .builderNeedOpenArray)
      else (addCompoundValue (reportAdd st) t, none)

/-- `Builder::openArray` (`Builder.h` lines 295-297). -/
def openArray (st : BuilderState) (unindexed : Bool) : BRes :=
  openCompoundValue st (if unindexed then 0x13 else 0x06)

/-- `Builder::openObject` (`Builder.h` lines 299-301). -/
def openObject (st : BuilderState) (unindexed : Bool) : BRes :=
  openCompoundValue st (if unindexed then 0x14 else 0x0b)

/-- The byte-count loop of `Builder::addBCD` (`Builder.h` lines 717-720):
`for (x = byteLen; x != 0; x >>= 8) n++` — zero for a zero input. -/
def nonzeroByteCount (x : Nat) : Nat :=
  if h : x = 0 then 0 else nonzeroByteCount (x / 256) + 1
termination_by x
decreasing_by
  exact Nat.div_lt_self (by omega) (by omega)

/-- The even-position packing loop of `Builder::addBCD` (`Builder.h` lines
734-744): each pair of digits becomes `(m[i] << 4) | m[i+1]`, truncated to
a byte.  A trailing singleton cannot occur on the paths `addBCD` takes
(after the odd first digit is peeled off the rest has even length). -/
def packPairs : List Nat → List Nat
  | a :: b :: rest => ((a <<< 4) ||| b) % 256 :: packPairs rest
  | [a] => [(a <<< 4) % 256]
  | [] => []

/-- `Builder::addBCD` (`Builder.h` lines 707-745), with the mantissa as the
list of its digit chars.  Gated by `options.disallowBCD`; head byte
`(sign >= 0 ? 0xc8 : 0xd0) + n - 1` where `n` is the byte count of the
packed-mantissa length; then `n` little-endian bytes of that length, the
4-byte little-endian exponent (`int32_t` cast through `ValueLength`), and
the packed mantissa (odd first digit emitted alone). -/
def addBCD (opts : Options) (st : BuilderState) (sign : Int)
    (exponent : Int) (mantissa : List Nat) : BRes :=
  if opts.disallowBCD then (st, some .builderBCDDisallowed)
  else
    let mLen := mantissa.length
    let isOdd := mLen % 2 ≠ 0
    let byteLen := mLen / 2 + (if isOdd then 1 else 0)
    let n := nonzeroByteCount byteLen
    let headByte := ((if 0 ≤ sign then 0xc8 else 0xd0) + n - 1) % 256
    let packed :=
      if isOdd then mantissa.headD 0 % 256 :: packPairs mantissa.tail
      else packPairs mantissa
    let bytes := headByte :: (leBytes n byteLen ++
      leBytes 4 ((exponent.emod (2 ^ 32)).toNat) ++ packed)
    ({ st with buffer := st.buffer ++ bytes }, none)

/-- Byte-wise lexicographic strict order on key strings.  Modelled from
the spec: close step 4 — `compare as unsigned bytes, shorter prefix is
smaller if equal` (the comparator of the sort routines in the missing
`Builder.cpp`). -/
def lexLt : List Nat → List Nat → Bool
  | [], [] => false
  | [], _ :: _ => true
  | _ :: _, [] => false
  | a :: as, b :: bs =>
    if a < b then true
    else if b < a then false
    else lexLt as bs

/-- One insertion step of a comparison-based insertion sort: place `a`
before the first element greater than it. -/
def insertOrdered (lt : α → α → Bool) (a : α) : List α → List α
  | [] => [a]
  | b :: l => if lt a b then a :: b :: l else b :: insertOrdered lt a l

/-- Insertion sort by a strict comparator. -/
def insertionSortBy (lt : α → α → Bool) : List α → List α
  | [] => []
  | a :: l => insertOrdered lt a (insertionSortBy lt l)

/-- Quicksort by a strict comparator (first element as pivot). -/
def qsortBy (lt : α → α → Bool) : List α → List α
  | [] => []
  | p :: rest =>
    qsortBy lt (rest.filter fun x => lt x p) ++
      p :: qsortBy lt (rest.filter fun x => !lt x p)
termination_by l => l.length
decreasing_by
  all_goals simp only [List.length_cons]
  all_goals exact Nat.lt_succ_of_le (List.length_filter_le _ _)

/-- `Builder::sortObjectIndexShort` (declared `Builder.h` lines 633-635,
body in the missing `Builder.cpp`).  Modelled from the spec: close step 4
uses insertion sort for small index ranges, ordering offsets by the
byte-wise order of the key each offset points to (`keyAt`). -/
def sortObjectIndexShort (keyAt : Nat → List Nat) (xs : List Nat) :
    List Nat :=
  insertionSortBy (fun a b => lexLt (keyAt a) (keyAt b)) xs

/-- `Builder::sortObjectIndexLong` (declared `Builder.h` lines 637-639,
body in the missing `Builder.cpp`).  Modelled from the spec: close step 4
uses an introspective sort for large index ranges under the same strict
weak ordering; introsort's quicksort main path is modelled, which agrees
with every sort by this comparator on distinct keys. -/
def sortObjectIndexLong (keyAt : Nat → List Nat) (xs : List Nat) :
    List Nat :=
  qsortBy (fun a b => lexLt (keyAt a) (keyAt b)) xs

/-- `Builder::sortObjectIndex` (`Builder.h` lines 641-651): dispatch on the
number of entries — the long routine for more than 32, the short routine
otherwise. -/
def sortObjectIndex (keyAt : Nat → List Nat) (xs : List Nat) : List Nat :=
  if xs.length > 32 then sortObjectIndexLong keyAt xs
  else sortObjectIndexShort keyAt xs

/-- Decode a little-endian byte sequence to a number. -/
def fromLE : List Nat → Nat
  | [] => 0
  | b :: rest => b % 256 + 256 * fromLE rest

/-- Key bytes of the child slice starting at absolute offset `abs` in the
buffer.  Modelled from the spec: keys are String slices (section 3): a
short string exposes `head - 0x40` bytes, a long string an 8-byte length
prefix; other heads (translator tokens) are treated as opaque and yield no
bytes here. -/
def keyBytesAt (buffer : List Nat) (abs : Nat) : List Nat :=
  let h := buffer.getD abs 0
  if 0x40 ≤ h ∧ h ≤ 0xbe then (buffer.drop (abs + 1)).take (h - 0x40)
  else if h = 0xbf then
    (buffer.drop (abs + 9)).take (fromLE ((buffer.drop (abs + 1)).take 8))
  else []

/-- Adjacent-duplicate scan over the sorted key list.  Modelled from the
spec: close step 4 — duplicate detection is linear after sort. -/
def hasAdjacentDup : List (List Nat) → Bool
  | a :: b :: rest => a == b || hasAdjacentDup (b :: rest)
  | _ => false

/-- Little-endian unsigned base-128 varint, high bit marking continuation.
Modelled from the spec: close step 3, compact containers carry their
length and item count as such varints. -/
def varintBytes (n : Nat) : List Nat :=
  if h : n < 128 then [n] else (n % 128 + 128) :: varintBytes (n / 128)
termination_by n
decreasing_by
  exact Nat.div_lt_self (by omega) (by omega)

/-- Total length of a compact container: the smallest `L` equal to
1 (head) + the varint length of `L` itself + body length + varint length
of the item count.  Modelled from the spec: the spec leaves the
self-reference of the byte-length varint implicit; the standard fixpoint
is taken. -/
def compactTotal (bodyLen nvLen : Nat) : Nat :=
  let base := 1 + bodyLen + nvLen
  if base + 1 < 2 ^ 7 then base + 1
  else if base + 2 < 2 ^ 14 then base + 2
  else if base + 3 < 2 ^ 21 then base + 3
  else if base + 4 < 2 ^ 28 then base + 4
  else if base + 5 < 2 ^ 35 then base + 5
  else if base + 6 < 2 ^ 42 then base + 6
  else if base + 7 < 2 ^ 49 then base + 7
  else if base + 8 < 2 ^ 56 then base + 8
  else base + 9

/-- Offset-width selection for an indexed container.  Modelled from the
spec: close step 3 — the smallest `w` in {1,2,4,8} such that the total
length (head + `w`-byte length + `w`-byte count + body + index table of
`n` entries) and every child offset, re-based after the 9-byte reserved
header shrinks to `1 + 2w`, fit in `w` bytes. -/
def pickWidth (bodyLen n : Nat) (rel : List Nat) : Nat :=
  let fitsW : Nat → Bool := fun w =>
    decide (1 + 2 * w + bodyLen + n * w < 2 ^ (8 * w)) &&
      rel.all fun c => c + 2 * w + 1 - 9 < 2 ^ (8 * w)
  if fitsW 1 then 1 else if fitsW 2 then 2 else if fitsW 4 then 4 else 8

/-- Log2 of a width in {1,2,4,8}, for the Object head `0x0b + log2 w`
(spec close step 3). -/
def widthLog : Nat → Nat
  | 2 => 1
  | 4 => 2
  | 8 => 3
  | _ => 0

/-- `Builder::close` (declared `Builder.h` line 555, body in the missing
`Builder.cpp`).  Modelled from the spec: section 4.2 — read the top frame;
no children gives the empty singleton (`0x01` / `0x0a`); a compact head
(`0x13` / `0x14`) keeps its head and gains varint length and count; an
indexed head gets the smallest fitting offset width, the final head byte,
length, count, body (moved forward over the shrunk header) and the index
table, sorted for Objects unless `buildUnsortedObjects`, with the linear
post-sort duplicate check when `checkAttributeUniqueness`.  Pops the frame
and the frame's tail of `indexes`. -/
def close (opts : Options) (st : BuilderState) : BRes :=
  match st.stack with
  | [] => (st, some .builderNeedOpenCompound)
  | frame :: restStack =>
    let p := frame.startPos
    let head := st.buffer.getD p 0
    let isAr := head = 0x06 ∨ head = 0x13
    let rel := (st.indexes.drop frame.indexStartPos).map (fun a => a - p)
    let n := rel.length
    let base := st.buffer.take p
    let body := st.buffer.drop (p + 9)
    let popped : BuilderState → BuilderState := fun s =>
      { s with stack := restStack,
               indexes := st.indexes.take frame.indexStartPos,
               children := st.children.tail }
    if n = 0 then
      (popped { st with buffer := base ++ [if isAr then 0x01 else 0x0a] },
        none)
    else if head = 0x13 ∨ head = 0x14 then
      let total := compactTotal body.length (varintBytes n).length
      (popped { st with buffer :=
          base ++ head :: (varintBytes total ++ body ++ varintBytes n) },
        none)
    else
      let keyOf : Nat → List Nat := fun c => keyBytesAt st.buffer (p + c)
      let sortedRel :=
        if head = 0x0b ∧ !opts.buildUnsortedObjects then
          sortObjectIndex keyOf rel
        else rel
      if head = 0x0b ∧ opts.checkAttributeUniqueness &&
          hasAdjacentDup ((sortObjectIndex keyOf rel).map keyOf) then
        (st, some .duplicateAttributeName)
      else
        let w := pickWidth body.length n rel
        let hdr := 1 + 2 * w
        let total := hdr + body.length + n * w
        let head2 := if isAr then 0x06 else 0x0b + widthLog w
        let table := (sortedRel.map fun c => leBytes w (c + hdr - 9)).flatten
        (popped { st with buffer := base ++ head2 ::
            (leBytes w total ++ leBytes w n ++ body ++ table) }, none)

/-- One public builder operation (spec section 4.1). -/
inductive Op where
  | addV (v : Value)
  | addS (s : List Nat)
  | addKV (k : List Nat) (v : Value)
  | addTV (tag : Nat) (v : Value)
  | addTKV (k : List Nat) (tag : Nat) (v : Value)
  | openArr (unindexed : Bool)
  | openObj (unindexed : Bool)
  | closeOp
deriving Repr, DecidableEq

/-- Dispatch one operation on the builder state. -/
def step (opts : Options) (st : BuilderState) : Op → BRes
  | .addV v => addInternal opts st v
  | .addS s => addSlice st s
  | .addKV k v => addInternalKV opts st k v
  | .addTV tag v => addInternalTagged opts st tag v
  | .addTKV k tag v => addInternalTaggedKV opts st k tag v
  | .openArr u => openArray st u
  | .openObj u => openObject st u
  | .closeOp => close opts st

/-- Run a sequence of operations; a throwing operation leaves its
(compensated) state behind and the run continues, as the C++ builder
object survives the exception. -/
def run (opts : Options) (ops : List Op) (st : BuilderState) :
    BuilderState :=
  ops.foldl (fun s op => (step opts s op).1) st

/-- Object head test of the frame checks (`_start[pos] == 0x0b ||
_start[pos] == 0x14`, `Builder.h` lines 759 and 771). -/
def isObjHeadByte (h : Nat) : Bool := h == 0x0b || h == 0x14

/-- The Object alternation invariant of spec section 3, stated on the
ghost child counters: the innermost frame's head byte lies inside the
buffer, and when that frame is an Object, `keyWritten` is true iff an odd
number of children (keys plus values) has been emitted into it, while a
non-Object innermost frame has `keyWritten` false. -/
def objInv (st : BuilderState) : Bool :=
  match st.stack, st.children with
  | [], [] => true
  | f :: _, c :: _ =>
    decide (f.startPos < st.buffer.length) &&
      (if isObjHeadByte (st.buffer.getD f.startPos 0) then
        st.keyWritten == decide (c % 2 = 1)
      else st.keyWritten == false)
  | _, _ => false

/-- The loop of `Collection::filter` (`Collection.cpp` lines 50-67) run
over the element slices of the input array, threading the iteration index;
the first component collects the elements added to the result builder, the
second records the `(index)` argument of each predicate invocation in
order.  Modelled from the spec: `ArrayIterator` (`Iterator.h` is not in
the sources) walks the array's elements in order; the builder's open
array accumulates the added elements. -/
def filterLoop (cb : α → Nat → Bool) : List α → Nat → List α × List Nat
  | [], _ => ([], [])
  | x :: xs, i =>
    let r := filterLoop cb xs (i + 1)
    (if cb x i then x :: r.1 else r.1, i :: r.2)

/-- `Collection::filter` (`Collection.cpp` lines 50-67): the children of
the closed result Array. -/
def collectionFilter (cb : α → Nat → Bool) (xs : List α) : List α :=
  (filterLoop cb xs 0).1

/-- The sequence of indices at which `Collection::filter` invokes its
predicate, in invocation order. -/
def collectionFilterCalls (cb : α → Nat → Bool) (xs : List α) : List Nat :=
  (filterLoop cb xs 0).2

/-- The minimum-width predicate of spec section 4.4 for signed values:
`k` bytes of two's complement can represent `v`. -/
def intFits (v : Int) (k : Nat) : Prop :=
  -(2 ^ (8 * k - 1)) ≤ v ∧ v < 2 ^ (8 * k - 1)

/-- Spec section 4.4: `k` is the minimum byte count in 1..8 representing
`v` in two's complement. -/
def minIntWidth (v : Int) (k : Nat) : Prop :=
  1 ≤ k ∧ k ≤ 8 ∧ intFits v k ∧ ∀ j, 1 ≤ j → intFits v j → k ≤ j

/-- Spec section 4.4: `k` is the minimum byte count in 1..8 representing
the unsigned value `u`. -/
def minUIntWidth (u : Nat) (k : Nat) : Prop :=
  1 ≤ k ∧ k ≤ 8 ∧ u < 2 ^ (8 * k) ∧ ∀ j, 1 ≤ j → u < 2 ^ (8 * j) → k ≤ j

/-- Default options, all flags off and no attribute translator
(`Options::Defaults`). -/
def Options.defaults : Options := ⟨false, false, false, false, false, false, none⟩

/-- A builder with one open Object frame holding a pending key `"a"`:
the state immediately before the failing add of claim C1. -/
def c1PreState : BuilderState :=
  run Options.defaults [Op.openObj false, Op.addV (Value.vString [0x61])]
    newBuilder

/-- A builder with one freshly opened (empty) Object frame. -/
def c3ObjState : BuilderState :=
  run Options.defaults [Op.openObj false] newBuilder

/-- A builder with one freshly opened (empty) Object frame, used by the
C4 witness. -/
def c4ObjState : BuilderState :=
  run Options.defaults [Op.openObj false] newBuilder

/-- The reachable state refuting C7: a top-level key/value add leaves
`keyWritten` set (the C++ `writeValue` sets it and nothing resets it when
the stack is empty), and an `openObject` immediately afterwards carries it
into the fresh Object frame, which then has zero children but
`keyWritten = true`. -/
def c7BadState : BuilderState :=
  run Options.defaults
    [Op.addKV [0x61] (Value.vSmallInt 1), Op.openObj false] newBuilder

/-- A builder with one freshly opened (empty) Object frame, used by the
C7 witness. -/
def c7ObjState : BuilderState :=
  run Options.defaults [Op.openObj false] newBuilder

/-!  Theorems.  -/

/-- With no open frame, the key check is a no-op (`Builder.h` line 757). -/
theorem checkKeyValid_nil (st : BuilderState) (b : Bool)
    (h : st.stack = []) : checkKeyValid st b = (st, none) := by
  obtain ⟨buf, stk, idx, kw, ch⟩ := st
  simp only [BuilderState.stack] at h
  subst h
  rfl

/-- With a non-Object innermost frame, the key check is a no-op
(`Builder.h` line 759). -/
theorem checkKeyValid_nonObj (st : BuilderState) (b : Bool)
    (f : CompoundInfo) (rest : List CompoundInfo) (h : st.stack = f :: rest)
    (h1 : st.buffer.getD f.startPos 0 ≠ 0x0b)
    (h2 : st.buffer.getD f.startPos 0 ≠ 0x14) :
    checkKeyValid st b = (st, none) := by
  obtain ⟨buf, stk, idx, kw, ch⟩ := st
  simp only [BuilderState.stack] at h
  subst h
  simp_all [checkKeyValid]

/-- With an Object innermost frame, the key check rejects an invalid item
in key position and otherwise toggles `_keyWritten` (`Builder.h` lines
756-779). -/
theorem checkKeyValid_obj (st : BuilderState) (b : Bool)
    (f : CompoundInfo) (rest : List CompoundInfo) (h : st.stack = f :: rest)
    (hobj : st.buffer.getD f.startPos 0 = 0x0b ∨
      st.buffer.getD f.startPos 0 = 0x14) :
    checkKeyValid st b =
      if st.keyWritten || b then
        ({ st with keyWritten := !st.keyWritten }, none)
      else (st, some .builderKeyMustBeString) := by
  obtain ⟨buf, stk, idx, kw, ch⟩ := st
  simp only [BuilderState.stack] at h
  subst h
  cases kw <;> cases b <;> rcases hobj with hc | hc <;>
    simp_all [checkKeyValid]

/-- C1.  The claim requires that after any failing `add` on an open frame
the tail of `indexes` and `keyWritten` are restored.  The code violates
this: `addInternal<T>(T const&)` (`Builder.h` lines 790-806) calls
`cleanupAdd()` in its catch block unconditionally, without the
`haveReported` guard its five sibling overloads use, so when a key is
already written (`_keyWritten == true`, hence no `reportAdd` was made) a
failing value emission pops the pending key's offset from `indexes` and
leaves `keyWritten` flipped to false.  Concretely: inside an open Object
with key `"a"` pending, adding an unencodable `Value` throws
`BuilderUnexpectedType`, `size()` is restored, but `indexes` loses the
key's entry `[9]` and `keyWritten` ends up `false` instead of `true`. -/
theorem c1_failed_add_pops_foreign_index :
    c1PreState.keyWritten = true ∧
    c1PreState.indexes = [9] ∧
    (addInternal Options.defaults c1PreState Value.vNone).2 =
      some Err.builderUnexpectedType ∧
    (addInternal Options.defaults c1PreState Value.vNone).1.buffer =
      c1PreState.buffer ∧
    (addInternal Options.defaults c1PreState Value.vNone).1.indexes = [] ∧
    (addInternal Options.defaults c1PreState Value.vNone).1.keyWritten =
      false := by
  decide

/-- C2.  `Builder::addBCD` (`Builder.h` line 724) writes the head byte
`(sign >= 0 ? 0xc8 : 0xd0) + n - 1`: for a non-negative sign and `n = 1`
length byte the head is `0xc8`, outside the claimed (and spec section 6)
positive-BCD range `0xc0..0xc7`, while the negative side lands in the
claimed `0xd0..0xd7`.  At sign `1`, exponent `0`, mantissa digits `[1, 2]`
the emitted bytes are head `0xc8`, length-of-length `0x01`, 4-byte
little-endian exponent, packed mantissa `0x12`. -/
theorem c2_addBCD_positive_head_outside_claimed_range :
    (addBCD Options.defaults newBuilder 1 0 [1, 2]).2 = none ∧
    (addBCD Options.defaults newBuilder 1 0 [1, 2]).1.buffer =
      [0xc8, 0x01, 0x00, 0x00, 0x00, 0x00, 0x12] ∧
    ¬(0xc0 ≤ (addBCD Options.defaults newBuilder 1 0 [1, 2]).1.buffer.getD
        0 0 ∧
      (addBCD Options.defaults newBuilder 1 0 [1, 2]).1.buffer.getD 0 0 ≤
        0xc7) ∧
    (addBCD Options.defaults newBuilder (-1) 0 [1, 2]).1.buffer.getD 0 0 =
      0xd0 := by
  refine ⟨?_, ?_, ?_, ?_⟩ <;>
    simp [addBCD, Options.defaults, newBuilder, nonzeroByteCount, leBytes,
      packPairs, List.getD] <;> decide

/-- C3, counterexample.  With no attribute translator configured, adding a
SmallInt slice (head `0x30`) as a key into a fresh open Object succeeds:
`checkKeyHasValidType(Slice)` (`Builder.h` lines 768-779) accepts String,
SmallInt and UInt slices without consulting the translator, refuting the
claim that a SmallInt or UInt key is rejected when no translator is
active. -/
theorem c3_smallint_key_accepted_without_translator :
    Options.defaults.attributeTranslator = none ∧
    c3ObjState.stack ≠ [] ∧
    c3ObjState.buffer.getD 0 0 = 0x0b ∧
    c3ObjState.keyWritten = false ∧
    isSmallIntHead 0x30 = true ∧
    (addSlice c3ObjState [0x30]).2 = none := by
  exact ⟨rfl, by decide, by decide, by decide, by decide, by decide⟩

/-- C3, amended: in an open Object frame expecting a key, adding a slice
fails with `BuilderKeyMustBeString` exactly when its head byte is neither
a String nor a SmallInt nor a UInt head, and succeeds exactly otherwise —
independently of the attribute translator. -/
theorem c3_object_key_check (st : BuilderState) (f : CompoundInfo)
    (rest : List CompoundInfo) (s : List Nat)
    (hst : st.stack = f :: rest)
    (hobj : st.buffer.getD f.startPos 0 = 0x0b ∨
      st.buffer.getD f.startPos 0 = 0x14)
    (hkw : st.keyWritten = false) :
    ((addSlice st s).2 = some Err.builderKeyMustBeString ↔
      (isStringHead (s.getD 0 0) || isSmallIntHead (s.getD 0 0) ||
        isUIntHead (s.getD 0 0)) = false) ∧
    ((addSlice st s).2 = none ↔
      (isStringHead (s.getD 0 0) || isSmallIntHead (s.getD 0 0) ||
        isUIntHead (s.getD 0 0)) = true) := by
  obtain ⟨buf, stk, idx, kw, ch⟩ := st
  simp only [BuilderState.stack] at hst
  simp only [BuilderState.keyWritten] at hkw
  subst hst; subst hkw
  cases hv : (isStringHead (s.getD 0 0) || isSmallIntHead (s.getD 0 0) ||
      isUIntHead (s.getD 0 0))
  · simp_all [addSlice, setSlice, checkKeyValidSlice, checkKeyValid,
      reportAdd, appendChild, cleanupAdd]
  · rw [Bool.or_eq_true, Bool.or_eq_true] at hv
    rcases hv with (h | h) | h <;>
      simp_all [addSlice, setSlice, checkKeyValidSlice, checkKeyValid,
        reportAdd, appendChild, cleanupAdd]

/-- C3, witness for the amended theorem: in the fresh open Object, a Bool
slice (head `0x19`) is rejected as a key with `BuilderKeyMustBeString`. -/
theorem c3_object_key_check_witness :
    (addSlice c3ObjState [0x19]).2 = some Err.builderKeyMustBeString ↔
      (isStringHead (List.getD [0x19] 0 0) ||
        isSmallIntHead (List.getD [0x19] 0 0) ||
        isUIntHead (List.getD [0x19] 0 0)) = false :=
  (c3_object_key_check c3ObjState ⟨0, 0⟩ [] [0x19] (by decide) (by decide)
    (by decide)).1

/-- C4, counterexample.  `Builder::addInternal(std::string_view, T const&)`
(`Builder.h` lines 833-874) performs its Object-frame check only when the
stack is nonempty: called on a builder with no open frame at all, it does
not fail with `BuilderNeedOpenObject` but succeeds, emitting the key
`"a"` as a String (`0x41 0x61`) and the value `12` (`0x20 0x0c`) as two
top-level values. -/
theorem c4_toplevel_keyvalue_add_succeeds :
    newBuilder.stack = [] ∧
    (addInternalKV Options.defaults newBuilder [0x61] (Value.vInt 12)).2 =
      none ∧
    (addInternalKV Options.defaults newBuilder [0x61]
      (Value.vInt 12)).1.buffer = [0x41, 0x61, 0x20, 0x0c] := by
  decide

/-- C4, amended: the key/value convenience add fails with
`BuilderNeedOpenObject` when a frame is open whose head is not an Object,
and with `BuilderKeyAlreadyWritten` when the innermost Object frame has a
pending key; with no open frame at all it succeeds, emitting key then
value as top-level values, and inside an open Object frame expecting a key
it succeeds, emitting the key as a String and then the value (attribute
translator not configured, value encodable). -/
theorem c4_keyvalue_add (opts : Options) (st : BuilderState)
    (name : List Nat) (v : Value)
    (hTr : opts.attributeTranslator = none) :
    (∀ f rest, st.stack = f :: rest →
      st.buffer.getD f.startPos 0 ≠ 0x0b →
      st.buffer.getD f.startPos 0 ≠ 0x14 →
      addInternalKV opts st name v = (st, some Err.builderNeedOpenObject)) ∧
    (∀ f rest, st.stack = f :: rest →
      (st.buffer.getD f.startPos 0 = 0x0b ∨
        st.buffer.getD f.startPos 0 = 0x14) →
      st.keyWritten = true →
      addInternalKV opts st name v =
        (st, some Err.builderKeyAlreadyWritten)) ∧
    (∀ bs, scalarBytes opts v = .ok bs →
      (st.stack = [] →
        (addInternalKV opts st name v).1.buffer =
          st.buffer ++ stringBytes name ++ bs ∧
        (addInternalKV opts st name v).2 = none) ∧
      (∀ f rest, st.stack = f :: rest →
        (st.buffer.getD f.startPos 0 = 0x0b ∨
          st.buffer.getD f.startPos 0 = 0x14) →
        st.keyWritten = false →
        (addInternalKV opts st name v).1.buffer =
          st.buffer ++ stringBytes name ++ bs ∧
        (addInternalKV opts st name v).2 = none)) := by
  obtain ⟨buf, stk, idx, kw, ch⟩ := st
  refine ⟨?_, ?_, ?_⟩
  · intro f rest hst h1 h2
    simp only [BuilderState.stack] at hst
    subst hst
    simp_all [addInternalKV]
  · intro f rest hst hobj hkw
    simp only [BuilderState.stack] at hst
    simp only [BuilderState.keyWritten] at hkw
    subst hst; subst hkw
    rcases hobj with hc | hc <;> simp_all [addInternalKV]
  · intro bs hbs
    constructor
    · intro hst
      simp only [BuilderState.stack] at hst
      subst hst
      simp [addInternalKV, emitKey, setStringPair, checkKeyValid,
        writeValue, set, appendChild, hTr, hbs, List.append_assoc]
    · intro f rest hst hobj hkw
      simp only [BuilderState.stack] at hst
      simp only [BuilderState.keyWritten] at hkw
      subst hst; subst hkw
      simp only [BuilderState.buffer] at hobj
      have hlt : f.startPos < buf.length := by
        by_contra hge
        push_neg at hge
        rcases hobj with hc | hc <;>
          rw [List.getD_eq_default _ _ hge] at hc <;> exact absurd hc (by decide)
      have happ : ∀ l' : List Nat,
          (buf ++ l').getD f.startPos 0 = buf.getD f.startPos 0 :=
        fun l' => List.getD_append _ _ _ _ hlt
      rcases hobj with hc | hc <;>
        simp_all [addInternalKV, emitKey, setStringPair, checkKeyValid,
          writeValue, set, appendChild, reportAdd, hTr, hbs,
          List.append_assoc]

/-- C4, witness for the amended theorem: inside a fresh open Object,
adding key `"a"` with value `12` succeeds and appends the String `"a"`
followed by the Int `12`. -/
theorem c4_keyvalue_add_witness :
    (addInternalKV Options.defaults c4ObjState [0x61] (Value.vInt 12)).1.buffer
        = c4ObjState.buffer ++ stringBytes [0x61] ++ [0x20, 0x0c] ∧
    (addInternalKV Options.defaults c4ObjState [0x61] (Value.vInt 12)).2 =
      none :=
  ((c4_keyvalue_add Options.defaults c4ObjState [0x61] (Value.vInt 12)
    rfl).2.2 [0x20, 0x0c] rfl).2 ⟨0, 0⟩ [] (by decide) (by decide)
    (by decide)

/-- C6.  The builder is a deterministic function of its inputs and
options: two builders constructed with identical options and fed the
identical operation sequence produce byte-identical output buffers.  In
this embedding every operation is a pure function of the state, mirroring
the C++ core, which consults no clock, randomness or address-dependent
data on these paths (the only environment-dependent bytes, `addExternal`'s
pointer payload, are part of the operation's input). -/
theorem c6_determinism (opts : Options) (ops : List Op)
    (b1 b2 : BuilderState) (h1 : b1 = newBuilder) (h2 : b2 = newBuilder) :
    (run opts ops b1).buffer = (run opts ops b2).buffer := by
  subst h1; subst h2; rfl

/-- C6, witness: two fresh builders running
`openArray; add 5; add "a"; close` agree byte for byte. -/
theorem c6_determinism_witness :
    (run Options.defaults
      [Op.openArr false, Op.addV (Value.vInt 5),
        Op.addV (Value.vString [0x61]), Op.closeOp] newBuilder).buffer =
    (run Options.defaults
      [Op.openArr false, Op.addV (Value.vInt 5),
        Op.addV (Value.vString [0x61]), Op.closeOp] newBuilder).buffer :=
  c6_determinism Options.defaults
    [Op.openArr false, Op.addV (Value.vInt 5),
      Op.addV (Value.vString [0x61]), Op.closeOp] newBuilder newBuilder
    rfl rfl

/-- C9.  A zero tag is the identity wrapper: `addInternalTagged` with
`tag == 0` takes exactly the branches of `addInternal` (`Builder.h` lines
790-831 — the `if (tag != 0) appendTag(tag);` is skipped) and likewise for
the key/value forms through `writeValueTagged` (`Builder.h` lines
876-933), so buffer, stack, indexes and `keyWritten` come out exactly as
for the untagged add, on success and on failure alike. -/
theorem c9_tag_zero_identity (opts : Options) (st : BuilderState)
    (v : Value) (name : List Nat) :
    addInternalTagged opts st 0 v = addInternal opts st v ∧
    addInternalTaggedKV opts st name 0 v = addInternalKV opts st name v := by
  constructor
  · cases h : st.stack <;>
      simp [addInternalTagged, addInternal, h]
  · cases h : st.stack <;>
      simp [addInternalTaggedKV, addInternalKV, writeValueTagged,
        writeValue, h]

/-- The filter loop started at any index `i` keeps exactly the elements
whose predicate call (at their enumeration index) returns true, in order,
and calls the predicate once per element at consecutive indices. -/
theorem filterLoop_spec (cb : α → Nat → Bool) (xs : List α) :
    ∀ i, filterLoop cb xs i =
      (((xs.enumFrom i).filter fun p => cb p.2 p.1).map Prod.snd,
        List.range' i xs.length) := by
  induction xs with
  | nil => intro i; rfl
  | cons x xs ih =>
    intro i
    simp only [filterLoop, ih (i + 1), List.enumFrom, List.range',
      List.length_cons]
    cases h : cb x i <;> simp [List.filter, h]

/-- C10.  `Collection::filter` returns a builder holding a closed Array
containing exactly the elements of the input array for which the
predicate returned true, in their original relative order, and the
predicate is invoked once per element with ascending indices starting at
0 (`Collection.cpp` lines 50-67). -/
theorem c10_filter_correct (cb : α → Nat → Bool) (xs : List α) :
    collectionFilter cb xs =
      ((xs.enum.filter fun p => cb p.2 p.1).map Prod.snd) ∧
    collectionFilterCalls cb xs = List.range xs.length := by
  constructor
  · simp [collectionFilter, filterLoop_spec, List.enum]
  · simp [collectionFilterCalls, filterLoop_spec, List.range_eq_range']


/-- The little-endian encoding always has exactly the requested number of
bytes. -/
theorem leBytes_length (n x : Nat) : (leBytes n x).length = n := by
  induction n generalizing x with
  | zero => rfl
  | succ n ih => simp [leBytes, ih]

/-- The `appendUInt` do-while loop emits the little-endian bytes of `v` at
the minimal byte count: at least one byte, `v` fits, and no smaller
positive count fits. -/
theorem uintLoopBytes_spec (v : Nat) :
    ∃ L, uintLoopBytes v = leBytes L v ∧ (uintLoopBytes v).length = L ∧
      1 ≤ L ∧ v < 2 ^ (8 * L) ∧ (∀ j, 1 ≤ j → v < 2 ^ (8 * j) → L ≤ j) := by
  induction v using Nat.strong_induction_on with
  | _ v ih =>
    by_cases h : v / 256 = 0
    · have hstep : uintLoopBytes v = [v % 256] := by
        rw [uintLoopBytes]
        exact dif_pos h
      have hv : v < 256 := by omega
      refine ⟨1, ?_, ?_, le_refl 1, by simpa using hv, fun j hj _ => hj⟩
      · rw [hstep]
        simp [leBytes]
      · rw [hstep]
        rfl
    · have hstep : uintLoopBytes v = v % 256 :: uintLoopBytes (v / 256) := by
        rw [uintLoopBytes]
        exact dif_neg h
      obtain ⟨L, e1, e2, hL1, hlt, hmin⟩ :=
        ih (v / 256) (Nat.div_lt_self (by omega) (by omega))
      refine ⟨L + 1, ?_, ?_, by omega, ?_, ?_⟩
      · rw [hstep, e1]
        simp [leBytes]
      · rw [hstep]
        simp [e2]
      · have h2 : v < 256 * 2 ^ (8 * L) := by omega
        calc v < 256 * 2 ^ (8 * L) := h2
          _ = 2 ^ (8 * (L + 1)) := by ring
      · intro j hj hvj
        rcases Nat.lt_or_ge j 2 with hj2 | hj2
        · interval_cases j
          simp at hvj
          omega
        · have h256 : (256 : Nat) * 2 ^ (8 * (j - 1)) = 2 ^ (8 * j) := by
            have hj1 : 8 * j = 8 + 8 * (j - 1) := by omega
            rw [hj1, pow_add]
            norm_num
          have hdiv : v / 256 < 2 ^ (8 * (j - 1)) := by
            refine Nat.div_lt_of_lt_mul ?_
            omega
          have := hmin (j - 1) (by omega) hdiv
          omega

/-- The `intLength` loop finds the least `m ≥ 1` with
`x < 0x80 * 256 ^ m`. -/
theorem intLengthLoop_spec (x : Nat) :
    x < 0x80 * 256 ^ intLengthLoop x ∧
    (∀ j, 1 ≤ j → x < 0x80 * 256 ^ j → intLengthLoop x ≤ j) := by
  induction x using Nat.strong_induction_on with
  | _ x ih =>
    by_cases h : 0x80 ≤ x / 256
    · have hstep : intLengthLoop x = intLengthLoop (x / 256) + 1 := by
        rw [intLengthLoop]
        exact dif_pos h
      obtain ⟨hlt, hmin⟩ := ih (x / 256) (Nat.div_lt_self (by omega) (by omega))
      rw [hstep]
      constructor
      · have : 256 * (0x80 * 256 ^ intLengthLoop (x / 256)) =
            0x80 * 256 ^ (intLengthLoop (x / 256) + 1) := by ring
        omega
      · intro j hj hxj
        rcases Nat.lt_or_ge j 2 with hj2 | hj2
        · interval_cases j
          simp at hxj
          omega
        · have h256 : (256 : Nat) * (0x80 * 256 ^ (j - 1)) = 0x80 * 256 ^ j := by
            have hj1 : (256 : Nat) ^ j = 256 * 256 ^ (j - 1) := by
              conv_lhs => rw [show j = (j - 1) + 1 by omega]
              rw [pow_succ]
              ring
            rw [hj1]
            ring
          have hdiv : x / 256 < 0x80 * 256 ^ (j - 1) := by
            refine Nat.div_lt_of_lt_mul ?_
            omega
          have := hmin (j - 1) (by omega) hdiv
          omega
    · have hstep : intLengthLoop x = 1 := by
        rw [intLengthLoop]
        exact dif_neg h
      rw [hstep]
      refine ⟨by omega, fun j hj _ => hj⟩

/-- Two's-complement representability in `k ≥ 1` bytes, reduced to a bound
on the C++ loop input `x = v >= 0 ? v : -(v+1)`. -/
theorem intFits_iff (v : Int) (k : Nat) (hk : 1 ≤ k) :
    intFits v k ↔
      (if 0 ≤ v then v.toNat else (-(v + 1)).toNat) < 0x80 * 256 ^ (k - 1) := by
  have hpow : (2 : Int) ^ (8 * k - 1) = ((0x80 * 256 ^ (k - 1) : Nat) : Int) := by
    have h1 : 8 * k - 1 = 7 + 8 * (k - 1) := by omega
    rw [h1, pow_add]
    push_cast
    rw [pow_mul]
    norm_num
  unfold intFits
  rw [hpow]
  split_ifs with h0 <;> omega

/-- `Builder::intLength` computes the minimum two's-complement byte count
in 1..8 for every `int64_t` value. -/
theorem intLength_spec (v : Int) (h1 : -(2 ^ 63) ≤ v) (h2 : v < 2 ^ 63) :
    minIntWidth v (intLength v) := by
  unfold minIntWidth
  by_cases hs : -0x80 ≤ v ∧ v ≤ 0x7f
  · have hk : intLength v = 1 := by
      unfold intLength
      rw [if_pos hs]
    rw [hk]
    refine ⟨le_refl 1, by norm_num, ?_, fun j hj _ => hj⟩
    unfold intFits
    norm_num
    omega
  · have hk : intLength v =
        intLengthLoop (if 0 ≤ v then v.toNat else (-(v + 1)).toNat) + 1 := by
      unfold intLength
      rw [if_neg hs]
    set x : Nat := if 0 ≤ v then v.toNat else (-(v + 1)).toNat with hx
    obtain ⟨hlt, hmin⟩ := intLengthLoop_spec x
    have hx128 : 0x80 ≤ x := by
      rw [hx]
      split_ifs with h0 <;> omega
    rw [hk]
    set m := intLengthLoop x with hm
    have hk1 : (1 : Nat) ≤ m + 1 := by omega
    refine ⟨hk1, ?_, ?_, ?_⟩
    · have hx63 : x < 0x80 * 256 ^ 7 := by
        have hlit : (0x80 * 256 ^ 7 : Nat) = 2 ^ 63 := by norm_num
        rw [hlit, hx]
        split_ifs with h0 <;> omega
      have := hmin 7 (by norm_num) hx63
      omega
    · rw [intFits_iff v (m + 1) hk1, ← hx]
      simpa using hlt
    · intro j hj hfits
      rw [intFits_iff v j hj, ← hx] at hfits
      rcases Nat.lt_or_ge j 2 with hj2 | hj2
      · interval_cases j
        simp at hfits
        omega
      · have := hmin (j - 1) (by omega) hfits
        omega

/-- `Builder::appendInt` emits head `0x1f + k` followed by the `k`
little-endian bytes of the two's-complement image `v mod 2 ^ (8k)`. -/
theorem appendInt_eq (v : Int) (h1 : -(2 ^ 63) ≤ v) (h2 : v < 2 ^ 63) :
    appendInt v 0x1f =
      (0x1f + intLength v) ::
        leBytes (intLength v) ((v.emod (2 ^ (8 * intLength v))).toNat) := by
  obtain ⟨hk1, hk8, hfits, -⟩ := intLength_spec v h1 h2
  unfold appendInt
  dsimp only
  set k := intLength v with hkdef
  have hmod : (0x1f + k) % 256 = 0x1f + k := Nat.mod_eq_of_lt (by omega)
  rw [hmod, mul_comm k 8]
  congr 1
  obtain ⟨hlo, hhi⟩ := hfits
  have hhalf : (2 : Int) ^ (8 * k - 1) * 2 = 2 ^ (8 * k) := by
    conv_rhs => rw [show 8 * k = (8 * k - 1) + 1 by omega]
    rw [pow_succ]
  by_cases hk : k = 8
  · rw [if_pos hk, hk]
  · rw [if_neg hk]
    split_ifs with h0
    · have hv : v.emod (2 ^ (8 * k)) = v := Int.emod_eq_of_lt h0 (by omega)
      rw [hv]
    · have he1 : (v + 2 ^ (8 * k)).emod (2 ^ (8 * k)) =
          v.emod (2 ^ (8 * k)) := Int.add_emod_self
      have he2 : (v + 2 ^ (8 * k)).emod (2 ^ (8 * k)) = v + 2 ^ (8 * k) :=
        Int.emod_eq_of_lt (by omega) (by omega)
      rw [← he1, he2]

/-- C5.  `addInt(v)` emits the single byte `0x30 + v` for `0 ≤ v ≤ 9`, the
single byte `0x40 + v` (i.e. `0x3a..0x3f`) for `-6 ≤ v ≤ -1`, and
otherwise head `0x1f + k` followed by exactly `k` little-endian
two's-complement bytes with `k` the minimum byte count in 1..8 that
represents `v`; `addUInt(v)` emits SmallInt `0x30 + v` for `v ≤ 9` and
otherwise head `0x27 + k` followed by the minimum `k` little-endian
bytes (`Builder.h` lines 684-705, 992-1037). -/
theorem c5_integer_width :
    (∀ v : Int, -(2 ^ 63) ≤ v → v < 2 ^ 63 →
      ((0 ≤ v ∧ v ≤ 9) → addInt v = [0x30 + v.toNat]) ∧
      ((-6 ≤ v ∧ v < 0) → addInt v = [(0x40 + v).toNat]) ∧
      ((v < -6 ∨ 9 < v) →
        addInt v = (0x1f + intLength v) ::
          leBytes (intLength v) ((v.emod (2 ^ (8 * intLength v))).toNat) ∧
        (leBytes (intLength v)
          ((v.emod (2 ^ (8 * intLength v))).toNat)).length = intLength v ∧
        minIntWidth v (intLength v))) ∧
    (∀ u : Nat, u < 2 ^ 64 →
      (u ≤ 9 → addUInt u = [0x30 + u]) ∧
      (9 < u → ∃ k, addUInt u = (0x27 + k) :: leBytes k u ∧
        (leBytes k u).length = k ∧ minUIntWidth u k)) := by
  constructor
  · intro v h1 h2
    refine ⟨?_, ?_, ?_⟩
    · intro hle
      unfold addInt
      rw [if_pos hle]
    · intro hneg
      unfold addInt
      rw [if_neg (by omega), if_pos ⟨hneg.2, hneg.1⟩]
    · intro hbig
      have hni : ¬(0 ≤ v ∧ v ≤ 9) := by omega
      have hnn : ¬(v < 0 ∧ -6 ≤ v) := by omega
      unfold addInt
      rw [if_neg hni, if_neg hnn]
      exact ⟨appendInt_eq v h1 h2, leBytes_length _ _, intLength_spec v h1 h2⟩
  · intro u hu
    refine ⟨?_, ?_⟩
    · intro hle
      unfold addUInt
      rw [if_pos hle]
    · intro hgt
      obtain ⟨L, e1, e2, hL1, hlt, hmin⟩ := uintLoopBytes_spec u
      have hu2 : u < 2 ^ (8 * 8) := by norm_num at hu ⊢; omega
      have hL8 : L ≤ 8 := hmin 8 (by norm_num) hu2
      refine ⟨L, ?_, leBytes_length _ _, hL1, hL8, hlt, hmin⟩
      unfold addUInt appendUInt
      rw [if_neg (by omega), e2,
        Nat.mod_eq_of_lt (show 0x27 + L < 256 by omega), e1]

/-- C5, witness: `addInt 1000` takes the wide branch with the minimal
width. -/
theorem c5_integer_width_witness :
    addInt 1000 = (0x1f + intLength 1000) ::
      leBytes (intLength 1000)
        (((1000 : Int).emod (2 ^ (8 * intLength 1000))).toNat) :=
  ((c5_integer_width.1 1000 (by norm_num) (by norm_num)).2.2
    (by norm_num)).1

/-- Byte-wise lexicographic order is irreflexive. -/
theorem lexLt_irrefl (a : List Nat) : lexLt a a = false := by
  induction a with
  | nil => rfl
  | cons x xs ih => simp [lexLt, ih]

/-- Byte-wise lexicographic order is transitive. -/
theorem lexLt_trans : ∀ a b c : List Nat,
    lexLt a b = true → lexLt b c = true → lexLt a c = true
  | [], _ :: _, _ :: _, _, _ => rfl
  | [], [], _, h1, _ => by simp [lexLt] at h1
  | [], _ :: _, [], _, h2 => by simp [lexLt] at h2
  | _ :: _, [], _, h1, _ => by simp [lexLt] at h1
  | _ :: _, _ :: _, [], _, h2 => by simp [lexLt] at h2
  | x :: xs, y :: ys, z :: zs, h1, h2 => by
    simp only [lexLt] at h1 h2 ⊢
    by_cases hxy : x < y
    · by_cases hyz : y < z
      · rw [if_pos (show x < z by omega)]
      · rw [if_neg hyz] at h2
        by_cases hzy : z < y
        · rw [if_pos hzy] at h2
          exact absurd h2 (by simp)
        · rw [if_pos (show x < z by omega)]
    · rw [if_neg hxy] at h1
      by_cases hyx : y < x
      · rw [if_pos hyx] at h1
        exact absurd h1 (by simp)
      · rw [if_neg hyx] at h1
        by_cases hyz : y < z
        · rw [if_pos (show x < z by omega)]
        · rw [if_neg hyz] at h2
          by_cases hzy : z < y
          · rw [if_pos hzy] at h2
            exact absurd h2 (by simp)
          · rw [if_neg hzy] at h2
            rw [if_neg (show ¬x < z by omega), if_neg (show ¬z < x by omega)]
            exact lexLt_trans xs ys zs h1 h2

/-- Byte sequences incomparable under `lexLt` are equal (the order is
connex): the comparator of close step 4 is a strict total order on key
strings. -/
theorem lexLt_conn : ∀ a b : List Nat,
    lexLt a b = false → lexLt b a = false → a = b
  | [], [], _, _ => rfl
  | [], _ :: _, h1, _ => by simp [lexLt] at h1
  | _ :: _, [], _, h2 => by simp [lexLt] at h2
  | x :: xs, y :: ys, h1, h2 => by
    simp only [lexLt] at h1 h2
    by_cases hxy : x < y
    · rw [if_pos hxy] at h1
      exact absurd h1 (by simp)
    · by_cases hyx : y < x
      · rw [if_pos hyx] at h2
        exact absurd h2 (by simp)
      · rw [if_neg hxy, if_neg hyx] at h1
        rw [if_neg hyx, if_neg hxy] at h2
        have hxy2 : x = y := by omega
        rw [hxy2, lexLt_conn xs ys h1 h2]

/-- Membership in an ordered insertion. -/
theorem mem_insertOrdered (lt : α → α → Bool) (a x : α) (l : List α) :
    x ∈ insertOrdered lt a l ↔ x = a ∨ x ∈ l := by
  induction l with
  | nil => simp [insertOrdered]
  | cons b l ih =>
    by_cases h : lt a b <;> simp [insertOrdered, h, ih] <;> tauto

/-- Ordered insertion permutes the element onto the list. -/
theorem perm_insertOrdered (lt : α → α → Bool) (a : α) (l : List α) :
    List.Perm (insertOrdered lt a l) (a :: l) := by
  induction l with
  | nil => exact List.Perm.refl _
  | cons b l ih =>
    simp only [insertOrdered]
    by_cases h : lt a b
    · rw [if_pos h]
    · rw [if_neg h]
      exact (ih.cons b).trans (List.Perm.swap a b l)

/-- Insertion sort permutes its input. -/
theorem perm_insertionSortBy (lt : α → α → Bool) (l : List α) :
    List.Perm (insertionSortBy lt l) l := by
  induction l with
  | nil => exact List.Perm.refl _
  | cons a l ih =>
    exact (perm_insertOrdered lt a (insertionSortBy lt l)).trans (ih.cons a)

/-- Ordered insertion preserves sortedness for a transitive asymmetric
strict comparator. -/
theorem pairwise_insertOrdered (lt : α → α → Bool)
    (htrans : ∀ a b c, lt a b = true → lt b c = true → lt a c = true)
    (hasym : ∀ a b, lt a b = true → lt b a = false)
    (a : α) (l : List α)
    (hl : l.Pairwise (fun u v => lt v u = false)) :
    (insertOrdered lt a l).Pairwise (fun u v => lt v u = false) := by
  induction l with
  | nil => simp [insertOrdered]
  | cons b l ih =>
    rcases List.pairwise_cons.mp hl with ⟨hb, hl2⟩
    simp only [insertOrdered]
    by_cases h : lt a b
    · rw [if_pos h]
      refine List.pairwise_cons.mpr ⟨?_, hl⟩
      intro x hx
      rcases List.mem_cons.mp hx with rfl | hxl
      · exact hasym a x h
      · by_cases hc : lt x a = true
        · exact absurd (htrans x a b hc h) (by simp [hb x hxl])
        · simpa using hc
    · rw [if_neg h]
      refine List.pairwise_cons.mpr ⟨?_, ih hl2⟩
      intro x hx
      rcases (mem_insertOrdered lt a x l).mp hx with rfl | hxl
      · simpa using h
      · exact hb x hxl

/-- Insertion sort sorts by the comparator. -/
theorem pairwise_insertionSortBy (lt : α → α → Bool)
    (htrans : ∀ a b c, lt a b = true → lt b c = true → lt a c = true)
    (hasym : ∀ a b, lt a b = true → lt b a = false) (l : List α) :
    (insertionSortBy lt l).Pairwise (fun u v => lt v u = false) := by
  induction l with
  | nil => exact List.Pairwise.nil
  | cons a l ih => exact pairwise_insertOrdered lt htrans hasym a _ ih

/-- Quicksort permutes its input. -/
theorem perm_qsortBy (lt : α → α → Bool) (l : List α) :
    List.Perm (qsortBy lt l) l := by
  have key : ∀ n, ∀ l2 : List α, l2.length = n →
      List.Perm (qsortBy lt l2) l2 := by
    intro n
    induction n using Nat.strong_induction_on with
    | _ n ih =>
      intro l2 hl
      cases l2 with
      | nil => rw [qsortBy]
      | cons p rest =>
        rw [qsortBy]
        have hlen : rest.length < n := by
          simp only [List.length_cons] at hl
          omega
        have h1 := ih (rest.filter fun x => lt x p).length
          (by have := List.length_filter_le (fun x => lt x p) rest; omega)
          _ rfl
        have h2 := ih (rest.filter fun x => !lt x p).length
          (by have := List.length_filter_le (fun x => !lt x p) rest; omega)
          _ rfl
        refine ((h1.append (h2.cons p)).trans ?_)
        refine (List.perm_middle).trans ?_
        exact (List.filter_append_perm _ rest).cons p
  exact key l.length l rfl

/-- Quicksort sorts by the comparator. -/
theorem pairwise_qsortBy (lt : α → α → Bool)
    (htrans : ∀ a b c, lt a b = true → lt b c = true → lt a c = true)
    (hasym : ∀ a b, lt a b = true → lt b a = false) (l : List α) :
    (qsortBy lt l).Pairwise (fun u v => lt v u = false) := by
  have key : ∀ n, ∀ l2 : List α, l2.length = n →
      (qsortBy lt l2).Pairwise (fun u v => lt v u = false) := by
    intro n
    induction n using Nat.strong_induction_on with
    | _ n ih =>
      intro l2 hl
      cases l2 with
      | nil =>
        rw [qsortBy]
        exact List.Pairwise.nil
      | cons p rest =>
        rw [qsortBy]
        have hlen : rest.length < n := by
          simp only [List.length_cons] at hl
          omega
        rw [List.pairwise_append]
        refine ⟨ih (rest.filter fun x => lt x p).length
            (by have := List.length_filter_le (fun x => lt x p) rest; omega)
            _ rfl, ?_, ?_⟩
        · refine List.pairwise_cons.mpr
            ⟨?_, ih (rest.filter fun x => !lt x p).length
              (by have := List.length_filter_le (fun x => !lt x p) rest
                  omega) _ rfl⟩
          intro y hy
          have hy2 : y ∈ rest.filter (fun x => !lt x p) :=
            (perm_qsortBy lt _).mem_iff.mp hy
          have := (List.mem_filter.mp hy2).2
          simpa using this
        · intro x hx y hy
          have hx2 : x ∈ rest.filter (fun u => lt u p) :=
            (perm_qsortBy lt _).mem_iff.mp hx
          have hxp : lt x p = true := (List.mem_filter.mp hx2).2
          rcases List.mem_cons.mp hy with rfl | hy3
          · exact hasym x y hxp
          · have hy2 : y ∈ rest.filter (fun u => !lt u p) :=
              (perm_qsortBy lt _).mem_iff.mp hy3
            have hyp : lt y p = false := by
              have := (List.mem_filter.mp hy2).2
              simpa using this
            by_cases hc : lt y x = true
            · exact absurd (htrans y x p hc hxp) (by simp [hyp])
            · simpa using hc
  exact key l.length l rfl

/-- Two sorted permutations of each other are equal when the order is
antisymmetric on the elements involved. -/
theorem pairwise_perm_eq {R : α → α → Prop} :
    ∀ l₁ l₂ : List α, List.Perm l₁ l₂ → l₁.Pairwise R → l₂.Pairwise R →
      (∀ a ∈ l₁, ∀ b ∈ l₁, R a b → R b a → a = b) → l₁ = l₂
  | [], l₂, hp, _, _, _ => hp.nil_eq
  | a :: t₁, l₂, hp, h1, h2, hanti => by
    cases l₂ with
    | nil => exact absurd hp.eq_nil (by simp)
    | cons b t₂ =>
      by_cases hab : a = b
      · subst hab
        have ht : List.Perm t₁ t₂ := hp.cons_inv
        have heq := pairwise_perm_eq t₁ t₂ ht
          (List.pairwise_cons.mp h1).2 (List.pairwise_cons.mp h2).2
          (fun u hu v hv => hanti u (List.mem_cons_of_mem a hu) v
            (List.mem_cons_of_mem a hv))
        rw [heq]
      · have haMem : a ∈ b :: t₂ := hp.mem_iff.mp (List.mem_cons_self a t₁)
        have hbMem : b ∈ a :: t₁ := hp.mem_iff.mpr (List.mem_cons_self b t₂)
        have haT2 : a ∈ t₂ := by
          rcases List.mem_cons.mp haMem with h | h
          · exact absurd h hab
          · exact h
        have hbT1 : b ∈ t₁ := by
          rcases List.mem_cons.mp hbMem with h | h
          · exact absurd h.symm hab
          · exact h
        have hRab : R a b := (List.pairwise_cons.mp h1).1 b hbT1
        have hRba : R b a := (List.pairwise_cons.mp h2).1 a haT2
        exact absurd (hanti a (List.mem_cons_self a t₁) b
          (List.mem_cons_of_mem a hbT1) hRab hRba) hab

/-- C8.  `sortObjectIndex` (`Builder.h` lines 641-651) dispatches to the
insertion-sort routine exactly when the number of index entries is at
most 32 and to the introspective-sort routine otherwise; both routines
produce permutations of the entries sorted by the byte-wise key order
(shorter prefix first), and when the keys are pairwise distinct the two
routines produce the same final ordering. -/
theorem c8_sort_routines (keyAt : Nat → List Nat) (xs : List Nat) :
    (xs.length ≤ 32 →
      sortObjectIndex keyAt xs = sortObjectIndexShort keyAt xs) ∧
    (32 < xs.length →
      sortObjectIndex keyAt xs = sortObjectIndexLong keyAt xs) ∧
    List.Perm (sortObjectIndexShort keyAt xs) xs ∧
    (sortObjectIndexShort keyAt xs).Pairwise
      (fun u v => lexLt (keyAt v) (keyAt u) = false) ∧
    List.Perm (sortObjectIndexLong keyAt xs) xs ∧
    (sortObjectIndexLong keyAt xs).Pairwise
      (fun u v => lexLt (keyAt v) (keyAt u) = false) ∧
    ((∀ a ∈ xs, ∀ b ∈ xs, keyAt a = keyAt b → a = b) →
      sortObjectIndexShort keyAt xs = sortObjectIndexLong keyAt xs) := by
  have htrans : ∀ a b c : Nat, lexLt (keyAt a) (keyAt b) = true →
      lexLt (keyAt b) (keyAt c) = true →
      lexLt (keyAt a) (keyAt c) = true :=
    fun a b c h1 h2 => lexLt_trans _ _ _ h1 h2
  have hasym : ∀ a b : Nat, lexLt (keyAt a) (keyAt b) = true →
      lexLt (keyAt b) (keyAt a) = false := by
    intro a b h
    by_cases hc : lexLt (keyAt b) (keyAt a) = true
    · exact absurd (lexLt_trans _ _ _ h hc) (by simp [lexLt_irrefl])
    · simpa using hc
  refine ⟨?_, ?_, ?_, ?_, ?_, ?_, ?_⟩
  · intro h
    unfold sortObjectIndex
    rw [if_neg (by omega)]
  · intro h
    unfold sortObjectIndex
    rw [if_pos (by omega)]
  · exact perm_insertionSortBy _ xs
  · exact pairwise_insertionSortBy _ htrans hasym xs
  · exact perm_qsortBy _ xs
  · exact pairwise_qsortBy _ htrans hasym xs
  · intro hinj
    refine pairwise_perm_eq _ _
      ((perm_insertionSortBy _ xs).trans (perm_qsortBy _ xs).symm)
      (pairwise_insertionSortBy _ htrans hasym xs)
      (pairwise_qsortBy _ htrans hasym xs) ?_
    intro a ha b hb hab hba
    have haxs : a ∈ xs := (perm_insertionSortBy _ xs).mem_iff.mp ha
    have hbxs : b ∈ xs := (perm_insertionSortBy _ xs).mem_iff.mp hb
    exact hinj a haxs b hbxs (lexLt_conn _ _ hba hab)

/-- C8, witness: on three entries with distinct one-byte keys the two
routines agree. -/
theorem c8_sort_routines_witness :
    sortObjectIndexShort (fun n => [n]) [3, 1, 2] =
      sortObjectIndexLong (fun n => [n]) [3, 1, 2] :=
  (c8_sort_routines (fun n => [n]) [3, 1, 2]).2.2.2.2.2.2 (by decide)

/-- The Boolean Object-head test agrees with the propositional form used
in `checkKeyValid`. -/
theorem isObjHeadByte_iff (h : Nat) :
    isObjHeadByte h = true ↔ (h = 0x0b ∨ h = 0x14) := by
  simp [isObjHeadByte]

/-- Effect of a successful `set(Value)` on the invariant-relevant state
components: one child's bytes are appended, the ghost counter of the
innermost frame is bumped, the stack is unchanged, and `keyWritten`
toggles exactly when the innermost frame is an Object. -/
theorem set_ok_proj (opts : Options) (v : Value) (st : BuilderState)
    (h : (set opts st v).2 = none) :
    (set opts st v).1.stack = st.stack ∧
    (set opts st v).1.children = bumpChild st.children ∧
    (∃ bs, (set opts st v).1.buffer = st.buffer ++ bs) ∧
    (set opts st v).1.keyWritten =
      (match st.stack with
        | f :: _ =>
          if isObjHeadByte (st.buffer.getD f.startPos 0) then !st.keyWritten
          else st.keyWritten
        | [] => st.keyWritten) := by
  obtain ⟨buf, stk, idx, kw, ch⟩ := st
  cases stk with
  | nil =>
    cases hsb : scalarBytes opts v with
    | error e => simp_all [set, checkKeyValid, appendChild]
    | ok bs =>
      refine ⟨?_, ?_, ⟨bs, ?_⟩, ?_⟩ <;>
        simp_all [set, checkKeyValid, appendChild]
  | cons f rest =>
    cases hsb : scalarBytes opts v with
    | error e =>
      by_cases hh : (buf.getD f.startPos 0 = 0x0b ∨ buf.getD f.startPos 0 = 0x14) <;>
        cases hkw : kw <;> cases hv : v.isStr <;>
          simp_all [set, checkKeyValid, appendChild]
    | ok bs =>
      by_cases hh : (buf.getD f.startPos 0 = 0x0b ∨ buf.getD f.startPos 0 = 0x14)
      · have hh2 : isObjHeadByte (buf.getD f.startPos 0) = true :=
          (isObjHeadByte_iff _).mpr hh
        cases hkw : kw <;> cases hv : v.isStr <;>
          simp_all [set, checkKeyValid, appendChild]
      · have hh2 : isObjHeadByte (buf.getD f.startPos 0) = false := by
          rcases hx : isObjHeadByte (buf.getD f.startPos 0) with hf | ht
          · rfl
          · exact absurd ((isObjHeadByte_iff _).mp hx) hh
        cases hkw : kw <;> cases hv : v.isStr <;>
          simp_all [set, checkKeyValid, appendChild]

/-- Effect of a successful `set(Slice)`, as for `set(Value)`. -/
theorem setSlice_ok_proj (sl : List Nat) (st : BuilderState)
    (h : (setSlice st sl).2 = none) :
    (setSlice st sl).1.stack = st.stack ∧
    (setSlice st sl).1.children = bumpChild st.children ∧
    (∃ bs, (setSlice st sl).1.buffer = st.buffer ++ bs) ∧
    (setSlice st sl).1.keyWritten =
      (match st.stack with
        | f :: _ =>
          if isObjHeadByte (st.buffer.getD f.startPos 0) then !st.keyWritten
          else st.keyWritten
        | [] => st.keyWritten) := by
  obtain ⟨buf, stk, idx, kw, ch⟩ := st
  cases stk with
  | nil =>
    refine ⟨?_, ?_, ⟨sl, ?_⟩, ?_⟩ <;>
      simp_all [setSlice, checkKeyValidSlice, checkKeyValid, appendChild]
  | cons f rest =>
    by_cases hh : (buf.getD f.startPos 0 = 0x0b ∨ buf.getD f.startPos 0 = 0x14)
    · have hh2 : isObjHeadByte (buf.getD f.startPos 0) = true :=
        (isObjHeadByte_iff _).mpr hh
      cases hkw : kw
      · cases hv : (isStringHead (sl.getD 0 0) || isSmallIntHead (sl.getD 0 0)
          || isUIntHead (sl.getD 0 0))
        · simp_all [setSlice, checkKeyValidSlice, checkKeyValid, appendChild]
        · rw [Bool.or_eq_true, Bool.or_eq_true] at hv
          rcases hv with (h1 | h1) | h1 <;>
            simp_all [setSlice, checkKeyValidSlice, checkKeyValid,
              appendChild]
      · simp_all [setSlice, checkKeyValidSlice, checkKeyValid, appendChild]
    · have hh2 : isObjHeadByte (buf.getD f.startPos 0) = false := by
        rcases hx : isObjHeadByte (buf.getD f.startPos 0) with hf | ht
        · rfl
        · exact absurd ((isObjHeadByte_iff _).mp hx) hh
      cases hkw : kw <;>
        simp_all [setSlice, checkKeyValidSlice, checkKeyValid, appendChild]

/-- Adding one child flips the parity bit. -/
theorem parity_flip (c : Nat) :
    decide ((c + 1) % 2 = 1) = !decide (c % 2 = 1) := by
  by_cases h : c % 2 = 1 <;> simp [h, Nat.add_mod] <;> omega

/-- A freshly opened container satisfies the alternation invariant
provided `keyWritten` was false when its head byte was emitted. -/
theorem objInv_addCompound (st : BuilderState) (t : Nat)
    (hkw : st.keyWritten = false) :
    objInv (addCompoundValue st t) = true := by
  obtain ⟨buf, stk, idx, kw, ch⟩ := st
  simp only [BuilderState.keyWritten] at hkw
  subst hkw
  have hget : (buf ++ t :: List.replicate 8 0).getD buf.length 0 = t := by
    rw [List.getD_append_right _ _ _ _ (le_refl _)]
    simp
  cases hob : isObjHeadByte t <;>
    simp [objInv, addCompoundValue, hget, hob]

/-- The key-emission step of the key/value add never throws and appends
exactly one child. -/
theorem emitKey_proj (opts : Options) (st : BuilderState) (name : List Nat)
    (hkw : st.keyWritten = false) :
    (emitKey opts st name).2 = none ∧
    (emitKey opts st name).1.stack = st.stack ∧
    (emitKey opts st name).1.children = bumpChild st.children ∧
    ∃ ks, (emitKey opts st name).1.buffer = st.buffer ++ ks := by
  obtain ⟨buf, stk, idx, kw, ch⟩ := st
  simp only [BuilderState.keyWritten] at hkw
  subst hkw
  cases hat : opts.attributeTranslator with
  | none =>
    cases stk with
    | nil =>
      refine ⟨?_, ?_, ?_, ⟨stringBytes name, ?_⟩⟩ <;>
        simp_all [emitKey, setStringPair, checkKeyValid, appendChild]
    | cons f rest =>
      by_cases hh : (buf.getD f.startPos 0 = 0x0b ∨
          buf.getD f.startPos 0 = 0x14) <;>
        refine ⟨?_, ?_, ?_, ⟨stringBytes name, ?_⟩⟩ <;>
          simp_all [emitKey, setStringPair, checkKeyValid, appendChild]
  | some tr =>
    cases htr : tr name with
    | some translated =>
      refine ⟨?_, ?_, ?_, ⟨translated, ?_⟩⟩ <;>
        simp_all [emitKey, appendChild]
    | none =>
      cases stk with
      | nil =>
        refine ⟨?_, ?_, ?_, ⟨stringBytes name, ?_⟩⟩ <;>
          simp_all [emitKey, setStringPair, checkKeyValid, appendChild]
      | cons f rest =>
        by_cases hh : (buf.getD f.startPos 0 = 0x0b ∨
            buf.getD f.startPos 0 = 0x14) <;>
          refine ⟨?_, ?_, ?_, ⟨stringBytes name, ?_⟩⟩ <;>
            simp_all [emitKey, setStringPair, checkKeyValid, appendChild]

/-- Effect of a successful value-form `addInternal` on an open frame. -/
theorem addV_ok_proj (opts : Options) (v : Value) (st : BuilderState)
    (f : CompoundInfo) (rest : List CompoundInfo)
    (hst : st.stack = f :: rest)
    (h : (addInternal opts st v).2 = none) :
    (addInternal opts st v).1.stack = st.stack ∧
    (addInternal opts st v).1.children = bumpChild st.children ∧
    (∃ bs, (addInternal opts st v).1.buffer = st.buffer ++ bs) ∧
    (addInternal opts st v).1.keyWritten =
      (if isObjHeadByte (st.buffer.getD f.startPos 0) then !st.keyWritten
       else st.keyWritten) := by
  set st1 := if !st.keyWritten then reportAdd st else st with hdef
  have hun : addInternal opts st v =
      (match set opts st1 v with
       | (st2, none) => (st2, (none : Option Err))
       | (st2, some e) => (cleanupAdd st2, some e)) := by
    rw [hdef]
    obtain ⟨buf, stk, idx, kw, ch⟩ := st
    simp only [BuilderState.stack] at hst
    subst hst
    rfl
  rw [hun] at h ⊢
  rcases hres : set opts st1 v with ⟨st2, e2⟩
  cases e2 with
  | some e =>
    rw [hres] at h
    simp at h
  | none =>
  have hok : (set opts st1 v).2 = none := by rw [hres]
  have e1 : st1.stack = st.stack := by
    rw [hdef]
    by_cases hkw : st.keyWritten <;> simp [reportAdd, hkw]
  have e2 : st1.buffer = st.buffer := by
    rw [hdef]
    by_cases hkw : st.keyWritten <;> simp [reportAdd, hkw]
  have e3 : st1.children = st.children := by
    rw [hdef]
    by_cases hkw : st.keyWritten <;> simp [reportAdd, hkw]
  have e4 : st1.keyWritten = st.keyWritten := by
    rw [hdef]
    by_cases hkw : st.keyWritten <;> simp [reportAdd, hkw]
  obtain ⟨p1, p2, p3, p4⟩ := set_ok_proj opts v st1 hok
  rw [hres] at p1 p2 p3 p4
  rw [e1, hst] at p4
  dsimp only at p4
  refine ⟨by rw [p1, e1], by rw [p2, e3], ?_, ?_⟩
  · obtain ⟨bs, hb⟩ := p3
    exact ⟨bs, by rw [hb, e2]⟩
  · rw [p4, e2, e4]

/-- Effect of a successful Slice `addInternal` on an open frame. -/
theorem addS_ok_proj (sl : List Nat) (st : BuilderState)
    (f : CompoundInfo) (rest : List CompoundInfo)
    (hst : st.stack = f :: rest)
    (h : (addSlice st sl).2 = none) :
    (addSlice st sl).1.stack = st.stack ∧
    (addSlice st sl).1.children = bumpChild st.children ∧
    (∃ bs, (addSlice st sl).1.buffer = st.buffer ++ bs) ∧
    (addSlice st sl).1.keyWritten =
      (if isObjHeadByte (st.buffer.getD f.startPos 0) then !st.keyWritten
       else st.keyWritten) := by
  set st1 := if !st.keyWritten then reportAdd st else st with hdef
  have hun : addSlice st sl =
      (match setSlice st1 sl with
       | (st2, none) => (st2, (none : Option Err))
       | (st2, some e) => (cleanupAdd st2, some e)) := by
    rw [hdef]
    obtain ⟨buf, stk, idx, kw, ch⟩ := st
    simp only [BuilderState.stack] at hst
    subst hst
    rfl
  rw [hun] at h ⊢
  rcases hres : setSlice st1 sl with ⟨st2, e2⟩
  cases e2 with
  | some e =>
    rw [hres] at h
    simp at h
  | none =>
  have hok : (setSlice st1 sl).2 = none := by rw [hres]
  have e1 : st1.stack = st.stack := by
    rw [hdef]
    by_cases hkw : st.keyWritten <;> simp [reportAdd, hkw]
  have e2 : st1.buffer = st.buffer := by
    rw [hdef]
    by_cases hkw : st.keyWritten <;> simp [reportAdd, hkw]
  have e3 : st1.children = st.children := by
    rw [hdef]
    by_cases hkw : st.keyWritten <;> simp [reportAdd, hkw]
  have e4 : st1.keyWritten = st.keyWritten := by
    rw [hdef]
    by_cases hkw : st.keyWritten <;> simp [reportAdd, hkw]
  obtain ⟨p1, p2, p3, p4⟩ := setSlice_ok_proj sl st1 hok
  rw [hres] at p1 p2 p3 p4
  rw [e1, hst] at p4
  dsimp only at p4
  refine ⟨by rw [p1, e1], by rw [p2, e3], ?_, ?_⟩
  · obtain ⟨bs, hb⟩ := p3
    exact ⟨bs, by rw [hb, e2]⟩
  · rw [p4, e2, e4]

/-- Effect of a successful tagged add on an open frame; the tag prefix
joins the value as a single child. -/
theorem addTV_ok_proj (opts : Options) (tag : Nat) (v : Value)
    (st : BuilderState) (f : CompoundInfo) (rest : List CompoundInfo)
    (hst : st.stack = f :: rest) (hlt : f.startPos < st.buffer.length)
    (h : (addInternalTagged opts st tag v).2 = none) :
    (addInternalTagged opts st tag v).1.stack = st.stack ∧
    (addInternalTagged opts st tag v).1.children = bumpChild st.children ∧
    (∃ bs, (addInternalTagged opts st tag v).1.buffer = st.buffer ++ bs) ∧
    (addInternalTagged opts st tag v).1.keyWritten =
      (if isObjHeadByte (st.buffer.getD f.startPos 0) then !st.keyWritten
       else st.keyWritten) := by
  set st1 := if tag != 0 then
      appendTagBytes (if !st.keyWritten then reportAdd st else st) tag
    else (if !st.keyWritten then reportAdd st else st) with hdef
  have hun : addInternalTagged opts st tag v =
      (match set opts st1 v with
       | (st2, none) => (st2, (none : Option Err))
       | (st2, some e) => (cleanupAdd st2, some e)) := by
    rw [hdef]
    obtain ⟨buf, stk, idx, kw, ch⟩ := st
    simp only [BuilderState.stack] at hst
    subst hst
    rfl
  rw [hun] at h ⊢
  rcases hres : set opts st1 v with ⟨st2, e2⟩
  cases e2 with
  | some e =>
    rw [hres] at h
    simp at h
  | none =>
  have hok : (set opts st1 v).2 = none := by rw [hres]
  have e1 : st1.stack = st.stack := by
    rw [hdef]
    by_cases ht : tag != 0 <;> by_cases hkw : st.keyWritten <;>
      simp [reportAdd, appendTagBytes, ht, hkw]
  have e2 : ∃ ts, st1.buffer = st.buffer ++ ts := by
    rw [hdef]
    by_cases ht : tag != 0 <;> by_cases hkw : st.keyWritten <;>
      simp [reportAdd, appendTagBytes, ht, hkw]
  have e3 : st1.children = st.children := by
    rw [hdef]
    by_cases ht : tag != 0 <;> by_cases hkw : st.keyWritten <;>
      simp [reportAdd, appendTagBytes, ht, hkw]
  have e4 : st1.keyWritten = st.keyWritten := by
    rw [hdef]
    by_cases ht : tag != 0 <;> by_cases hkw : st.keyWritten <;>
      simp [reportAdd, appendTagBytes, ht, hkw]
  obtain ⟨ts, hts⟩ := e2
  have egd : st1.buffer.getD f.startPos 0 = st.buffer.getD f.startPos 0 := by
    rw [hts]
    exact List.getD_append _ _ _ _ hlt
  obtain ⟨p1, p2, p3, p4⟩ := set_ok_proj opts v st1 hok
  rw [hres] at p1 p2 p3 p4
  rw [e1, hst] at p4
  dsimp only at p4
  refine ⟨by rw [p1, e1], by rw [p2, e3], ?_, ?_⟩
  · obtain ⟨bs, hb⟩ := p3
    exact ⟨ts ++ bs, by rw [hb, hts, List.append_assoc]⟩
  · rw [p4, egd, e4]

/-- With a zero tag the tagged value-form add takes exactly the branches
of the untagged one (`Builder.h` lines 809-831). -/
theorem tagZero_addInternal (opts : Options) (st : BuilderState)
    (v : Value) : addInternalTagged opts st 0 v = addInternal opts st v := by
  cases h : st.stack <;> simp [addInternalTagged, addInternal, h]

/-- With a zero tag the tagged key/value add equals the untagged one
(`Builder.h` lines 876-933). -/
theorem tagZero_addInternalKV (opts : Options) (st : BuilderState)
    (name : List Nat) (v : Value) :
    addInternalTaggedKV opts st name 0 v = addInternalKV opts st name v := by
  cases h : st.stack <;>
    simp [addInternalTaggedKV, addInternalKV, writeValueTagged, writeValue, h]

/-- Effect of a successful `writeValueTagged` on an open frame: one child
appended, and `keyWritten` ends false exactly when the frame is an Object
(the value completes the pending key). -/
theorem writeValueTagged_ok_proj (opts : Options) (tag : Nat) (v : Value)
    (st : BuilderState) (f : CompoundInfo) (rest : List CompoundInfo)
    (hst : st.stack = f :: rest) (hlt : f.startPos < st.buffer.length)
    (h : (writeValueTagged opts st tag v).2 = none) :
    (writeValueTagged opts st tag v).1.stack = st.stack ∧
    (writeValueTagged opts st tag v).1.children = bumpChild st.children ∧
    (∃ bs, (writeValueTagged opts st tag v).1.buffer = st.buffer ++ bs) ∧
    (writeValueTagged opts st tag v).1.keyWritten =
      (if isObjHeadByte (st.buffer.getD f.startPos 0) then false
       else true) := by
  set st1 : BuilderState := { st with keyWritten := true } with h1
  set st2 := if tag != 0 then appendTagBytes st1 tag else st1 with h2
  have hun : writeValueTagged opts st tag v = set opts st2 v := rfl
  rw [hun] at h ⊢
  have e1 : st2.stack = st.stack := by
    rw [h2, h1]
    by_cases ht : tag != 0 <;> simp [appendTagBytes, ht]
  have e2 : ∃ ts, st2.buffer = st.buffer ++ ts := by
    rw [h2, h1]
    by_cases ht : tag != 0 <;> simp [appendTagBytes, ht]
  have e3 : st2.children = st.children := by
    rw [h2, h1]
    by_cases ht : tag != 0 <;> simp [appendTagBytes, ht]
  have e4 : st2.keyWritten = true := by
    rw [h2, h1]
    by_cases ht : tag != 0 <;> simp [appendTagBytes, ht]
  obtain ⟨ts, hts⟩ := e2
  have egd : st2.buffer.getD f.startPos 0 = st.buffer.getD f.startPos 0 := by
    rw [hts]
    exact List.getD_append _ _ _ _ hlt
  obtain ⟨p1, p2, p3, p4⟩ := set_ok_proj opts v st2 h
  rw [e1, hst] at p4
  dsimp only at p4
  refine ⟨by rw [p1, e1], by rw [p2, e3], ?_, ?_⟩
  · obtain ⟨bs, hb⟩ := p3
    exact ⟨ts ++ bs, by rw [hb, hts, List.append_assoc]⟩
  · rw [p4, egd, e4]
    cases isObjHeadByte (st.buffer.getD f.startPos 0) <;> simp

/-- Effect of a successful tagged key/value add on an open frame: it
requires an Object head and no pending key, and appends exactly two
children (key and value), ending with `keyWritten` false. -/
theorem addTKV_ok_proj (opts : Options) (name : List Nat) (tag : Nat)
    (v : Value) (st : BuilderState) (f : CompoundInfo)
    (rest : List CompoundInfo) (hst : st.stack = f :: rest)
    (h : (addInternalTaggedKV opts st name tag v).2 = none) :
    (addInternalTaggedKV opts st name tag v).1.stack = st.stack ∧
    (addInternalTaggedKV opts st name tag v).1.children =
      bumpChild (bumpChild st.children) ∧
    (∃ bs, (addInternalTaggedKV opts st name tag v).1.buffer =
      st.buffer ++ bs) ∧
    (addInternalTaggedKV opts st name tag v).1.keyWritten = false ∧
    isObjHeadByte (st.buffer.getD f.startPos 0) = true ∧
    st.keyWritten = false := by
  have hun : addInternalTaggedKV opts st name tag v =
      (if st.buffer.getD f.startPos 0 ≠ 0x0b ∧
          st.buffer.getD f.startPos 0 ≠ 0x14 then
        (st, some Err.builderNeedOpenObject)
      else if st.keyWritten then (st, some Err.builderKeyAlreadyWritten)
      else
        match emitKey opts (reportAdd st) name with
        | (st2, some e) => (cleanupAdd st2, some e)
        | (st2, none) =>
          match writeValueTagged opts st2 tag v with
          | (st3, none) => (st3, none)
          | (st3, some e) => (cleanupAdd st3, some e)) := by
    obtain ⟨buf, stk, idx, kw, ch⟩ := st
    simp only [BuilderState.stack] at hst
    subst hst
    rfl
  rw [hun] at h ⊢
  by_cases hobj : (st.buffer.getD f.startPos 0 ≠ 0x0b ∧
      st.buffer.getD f.startPos 0 ≠ 0x14)
  · rw [if_pos hobj] at h
    simp at h
  · rw [if_neg hobj] at h ⊢
    by_cases hkw : st.keyWritten
    · rw [if_pos hkw] at h
      simp at h
    · rw [if_neg hkw] at h ⊢
      have hkwf : st.keyWritten = false := by simpa using hkw
      have hor : st.buffer.getD f.startPos 0 = 0x0b ∨
          st.buffer.getD f.startPos 0 = 0x14 := by tauto
      have hob : isObjHeadByte (st.buffer.getD f.startPos 0) = true :=
        (isObjHeadByte_iff _).mpr hor
      have hlt : f.startPos < st.buffer.length := by
        by_contra hge
        push_neg at hge
        rcases hor with hc | hc <;>
          rw [List.getD_eq_default _ _ hge] at hc <;>
            exact absurd hc (by decide)
      obtain ⟨ek0, ek1, ek2, ks, ek3⟩ :=
        emitKey_proj opts (reportAdd st) name (by simpa [reportAdd] using hkwf)
      rcases hE : emitKey opts (reportAdd st) name with ⟨st2, eE⟩
      rw [hE] at ek0 ek1 ek2 ek3 h
      cases eE with
      | some e => simp at ek0
      | none =>
      dsimp only at h ⊢
      have hst2 : st2.stack = f :: rest := by
        rw [ek1]
        simpa [reportAdd] using hst
      have hbuf2 : st2.buffer = st.buffer ++ ks := ek3
      have hch2 : st2.children = bumpChild st.children := ek2
      have hlt2 : f.startPos < st2.buffer.length := by
        rw [hbuf2, List.length_append]
        omega
      have hgd2 : st2.buffer.getD f.startPos 0 =
          st.buffer.getD f.startPos 0 := by
        rw [hbuf2]
        exact List.getD_append _ _ _ _ hlt
      rcases hW : writeValueTagged opts st2 tag v with ⟨st3, eW⟩
      rw [hW] at h
      cases eW with
      | some e => simp at h
      | none =>
      dsimp only at h ⊢
      have hwok : (writeValueTagged opts st2 tag v).2 = none := by rw [hW]
      obtain ⟨q1, q2, q3, q4⟩ :=
        writeValueTagged_ok_proj opts tag v st2 f rest hst2 hlt2 hwok
      rw [hW] at q1 q2 q3 q4
      refine ⟨by rw [q1, hst2, hst], ?_, ?_, ?_, hob, hkwf⟩
      · rw [q2, hch2]
      · obtain ⟨bs, hb⟩ := q3
        exact ⟨ks ++ bs, by rw [hb, hbuf2, List.append_assoc]⟩
      · rw [q4, hgd2, hob]
        simp

/-- Effect of a successful key/value add on an open frame. -/
theorem addKV_ok_proj (opts : Options) (name : List Nat) (v : Value)
    (st : BuilderState) (f : CompoundInfo) (rest : List CompoundInfo)
    (hst : st.stack = f :: rest)
    (h : (addInternalKV opts st name v).2 = none) :
    (addInternalKV opts st name v).1.stack = st.stack ∧
    (addInternalKV opts st name v).1.children =
      bumpChild (bumpChild st.children) ∧
    (∃ bs, (addInternalKV opts st name v).1.buffer = st.buffer ++ bs) ∧
    (addInternalKV opts st name v).1.keyWritten = false ∧
    isObjHeadByte (st.buffer.getD f.startPos 0) = true ∧
    st.keyWritten = false := by
  rw [← tagZero_addInternalKV opts st name v] at h ⊢
  exact addTKV_ok_proj opts name 0 v st f rest hst h

/-- Unpacking the alternation invariant at a nonempty stack. -/
theorem objInv_elim (st : BuilderState) (f : CompoundInfo)
    (rest : List CompoundInfo) (hst : st.stack = f :: rest)
    (hInv : objInv st = true) :
    ∃ c cr, st.children = c :: cr ∧ f.startPos < st.buffer.length ∧
      st.keyWritten = (if isObjHeadByte (st.buffer.getD f.startPos 0) then
        decide (c % 2 = 1) else false) := by
  obtain ⟨buf, stk, idx, kw, ch⟩ := st
  simp only [BuilderState.stack] at hst
  subst hst
  cases ch with
  | nil => simp [objInv] at hInv
  | cons c cr =>
    simp only [objInv] at hInv
    rw [Bool.and_eq_true] at hInv
    obtain ⟨h1, h2⟩ := hInv
    refine ⟨c, cr, rfl, of_decide_eq_true h1, ?_⟩
    cases hob : isObjHeadByte (buf.getD f.startPos 0) <;>
      rw [hob] at h2 <;> simp at h2 <;> simpa using h2

/-- Establishing the alternation invariant at a nonempty stack. -/
theorem objInv_intro (st : BuilderState) (f : CompoundInfo)
    (rest : List CompoundInfo) (c : Nat) (cr : List Nat)
    (hst : st.stack = f :: rest) (hch : st.children = c :: cr)
    (hlt : f.startPos < st.buffer.length)
    (hkw : st.keyWritten = (if isObjHeadByte (st.buffer.getD f.startPos 0)
      then decide (c % 2 = 1) else false)) :
    objInv st = true := by
  obtain ⟨buf, stk, idx, kw, ch⟩ := st
  simp only [BuilderState.stack] at hst
  simp only [BuilderState.children] at hch
  subst hst
  subst hch
  cases hob : isObjHeadByte (buf.getD f.startPos 0) <;>
    simp_all [objInv]

/-- A successful `openCompoundValue` on an open frame opens the new
container from a state with `keyWritten` false (`Builder.h` lines
944-963). -/
theorem openCompound_ok (st : BuilderState) (t : Nat) (f : CompoundInfo)
    (rest : List CompoundInfo) (hst : st.stack = f :: rest)
    (h : (openCompoundValue st t).2 = none) :
    ∃ st', (openCompoundValue st t).1 = addCompoundValue st' t ∧
      st'.keyWritten = false := by
  obtain ⟨buf, stk, idx, kw, ch⟩ := st
  simp only [BuilderState.stack] at hst
  subst hst
  cases kw
  · by_cases hh : (buf.getD f.startPos 0 ≠ 0x06 ∧ buf.getD f.startPos 0 ≠ 0x13)
    · exfalso
      simp only [openCompoundValue] at h
      rw [if_neg (by simp), if_pos hh] at h
      simp at h
    · refine ⟨reportAdd ⟨buf, f :: rest, idx, false, ch⟩, ?_, rfl⟩
      simp only [openCompoundValue]
      rw [if_neg (by simp), if_neg hh]
  · exact ⟨⟨buf, f :: rest, idx, false, ch⟩,
      by simp [openCompoundValue], rfl⟩

/-- C7, amended: every add and open operation that succeeds while at
least one frame is open preserves the Object alternation invariant —
when the innermost open frame is an Object, its children alternate key,
value, key, value, … and `keyWritten` is true iff an odd number of
children has been appended to it. -/
theorem c7_alternation_preserved (opts : Options) (st : BuilderState)
    (op : Op) (f : CompoundInfo) (rest : List CompoundInfo)
    (hst : st.stack = f :: rest) (hInv : objInv st = true)
    (hNC : op ≠ Op.closeOp) (hOk : (step opts st op).2 = none) :
    objInv (step opts st op).1 = true := by
  obtain ⟨c, cr, hch, hlt, hkwC⟩ := objInv_elim st f rest hst hInv
  cases op with
  | closeOp => exact absurd rfl hNC
  | openArr u =>
    simp only [step, openArray] at hOk ⊢
    obtain ⟨st2, he, hkw2⟩ := openCompound_ok st _ f rest hst hOk
    rw [he]
    exact objInv_addCompound st2 _ hkw2
  | openObj u =>
    simp only [step, openObject] at hOk ⊢
    obtain ⟨st2, he, hkw2⟩ := openCompound_ok st _ f rest hst hOk
    rw [he]
    exact objInv_addCompound st2 _ hkw2
  | addV v =>
    simp only [step] at hOk ⊢
    obtain ⟨p1, p2, p3, p4⟩ := addV_ok_proj opts v st f rest hst hOk
    obtain ⟨bs, hb⟩ := p3
    refine objInv_intro _ f rest (c + 1) cr (by rw [p1, hst]) ?_ ?_ ?_
    · rw [p2, hch]
      simp [bumpChild]
    · rw [hb, List.length_append]
      omega
    · rw [p4, hb, List.getD_append _ _ _ _ hlt, hkwC]
      cases hob : isObjHeadByte (st.buffer.getD f.startPos 0) <;>
        simp [hob, parity_flip]
  | addS sl =>
    simp only [step] at hOk ⊢
    obtain ⟨p1, p2, p3, p4⟩ := addS_ok_proj sl st f rest hst hOk
    obtain ⟨bs, hb⟩ := p3
    refine objInv_intro _ f rest (c + 1) cr (by rw [p1, hst]) ?_ ?_ ?_
    · rw [p2, hch]
      simp [bumpChild]
    · rw [hb, List.length_append]
      omega
    · rw [p4, hb, List.getD_append _ _ _ _ hlt, hkwC]
      cases hob : isObjHeadByte (st.buffer.getD f.startPos 0) <;>
        simp [hob, parity_flip]
  | addTV tag v =>
    simp only [step] at hOk ⊢
    obtain ⟨p1, p2, p3, p4⟩ := addTV_ok_proj opts tag v st f rest hst hlt hOk
    obtain ⟨bs, hb⟩ := p3
    refine objInv_intro _ f rest (c + 1) cr (by rw [p1, hst]) ?_ ?_ ?_
    · rw [p2, hch]
      simp [bumpChild]
    · rw [hb, List.length_append]
      omega
    · rw [p4, hb, List.getD_append _ _ _ _ hlt, hkwC]
      cases hob : isObjHeadByte (st.buffer.getD f.startPos 0) <;>
        simp [hob, parity_flip]
  | addKV k v =>
    simp only [step] at hOk ⊢
    obtain ⟨p1, p2, p3, p4, pobj, pkw⟩ :=
      addKV_ok_proj opts k v st f rest hst hOk
    obtain ⟨bs, hb⟩ := p3
    have hceven : ¬(c % 2 = 1) := by
      have h1 : st.keyWritten = decide (c % 2 = 1) := by
        rw [hkwC, pobj]
        simp
      rw [pkw] at h1
      simpa using h1.symm
    refine objInv_intro _ f rest (c + 2) cr (by rw [p1, hst]) ?_ ?_ ?_
    · rw [p2, hch]
      simp [bumpChild]
    · rw [hb, List.length_append]
      omega
    · rw [p4, hb, List.getD_append _ _ _ _ hlt, pobj]
      simp only [if_pos]
      have : ¬((c + 2) % 2 = 1) := by omega
      simp [this]
      omega
  | addTKV k tag v =>
    simp only [step] at hOk ⊢
    obtain ⟨p1, p2, p3, p4, pobj, pkw⟩ :=
      addTKV_ok_proj opts k tag v st f rest hst hOk
    obtain ⟨bs, hb⟩ := p3
    have hceven : ¬(c % 2 = 1) := by
      have h1 : st.keyWritten = decide (c % 2 = 1) := by
        rw [hkwC, pobj]
        simp
      rw [pkw] at h1
      simpa using h1.symm
    refine objInv_intro _ f rest (c + 2) cr (by rw [p1, hst]) ?_ ?_ ?_
    · rw [p2, hch]
      simp [bumpChild]
    · rw [hb, List.length_append]
      omega
    · rw [p4, hb, List.getD_append _ _ _ _ hlt, pobj]
      simp only [if_pos]
      have : ¬((c + 2) % 2 = 1) := by omega
      simp [this]
      omega

/-- C7, counterexample.  The invariant as claimed does not hold at every
reachable state: a top-level key/value add (which succeeds, cf. C4)
leaves `keyWritten` set because `writeValue` (`Builder.h` line 922) sets
it and nothing resets it when the stack is empty; the next `openObject`
(`Builder.h` lines 944-948) pushes a fresh Object frame without clearing
it.  The resulting reachable state has an innermost Object frame with
zero (an even number of) children appended and `keyWritten = true`. -/
theorem c7_invariant_fails_at_reachable_state :
    (step Options.defaults newBuilder
      (Op.addKV [0x61] (Value.vSmallInt 1))).2 = none ∧
    (step Options.defaults
      (run Options.defaults [Op.addKV [0x61] (Value.vSmallInt 1)] newBuilder)
      (Op.openObj false)).2 = none ∧
    c7BadState.stack = [⟨3, 0⟩] ∧
    c7BadState.buffer.getD 3 0 = 0x0b ∧
    c7BadState.children = [0] ∧
    c7BadState.keyWritten = true ∧
    objInv c7BadState = false := by
  decide

/-- C7, witness: adding a string key into a fresh open Object preserves
the invariant. -/
theorem c7_alternation_preserved_witness :
    objInv (step Options.defaults c7ObjState
      (Op.addV (Value.vString [0x61]))).1 = true :=
  c7_alternation_preserved Options.defaults c7ObjState
    (Op.addV (Value.vString [0x61])) ⟨0, 0⟩ [] (by decide) (by decide)
    (by decide) (by decide)
end VPack
